import Mathlib

/-!
Verification development for the data-generated-cube repository.

Shallow embedding of the parts of the code that the checked properties are
about:

* `src/data_generated_cube/create_cube/cube_creator.py` — the weighted quota
  allocation (`get_normalized_card_count`, `get_color_counts`,
  `adjust_color_counts`) and the cube selection pipeline (`make_cube`,
  `make_color_frame` and its helpers).
* `src/data_generated_cube/elo/elo_fetcher.py` — the ELO cache
  (`get_card_elo`, `update_card_elo`, `get_card_elo_from_cube_cobra`,
  `get_card_by_name_with_max_id`, `try_multiple_ids_for_elo`,
  `get_elo_from_id_async`, `save_cache`, `load_cache`).
* `src/data_generated_cube/common/common.py` — `to_pickle` / `from_pickle`.

Python machine-level conventions used throughout the embedding:
* Python `int` is modelled by `Int` (arbitrary precision, no overflow).
* Python `float` arithmetic in the quota code is modelled by `ℚ`; `int(x)`
  (truncation toward zero) is `pytrunc`; `round(x, 4)` (round half to even)
  is `round4`.  Floating-point representation error is not modelled.
* Network I/O (`fetch_data`) is modelled by oracle parameters giving the
  outcome that the remote call would produce for each input.
* `datetime` values are modelled by integer day counts, so that
  `(today - lastUpdated).days` becomes integer subtraction.
-/

/-! ## Quota allocation: `CubeCreator.adjust_color_counts`

`color_counts` is a dict over the eight members of `COLORS_SET`
(constants.py line 15).  We model it as a structure with one `Int` field per
category. -/

/-- The per-category card-count dict built by `CubeCreator.get_color_counts`,
with one field per member of `COLORS_SET = {"White", "Blue", "Black", "Red",
"Green", "Multicolored", "Colorless", "Land"}`. -/
structure ColorCounts where
  white : Int
  blue : Int
  black : Int
  red : Int
  green : Int
  multicolored : Int
  colorless : Int
  land : Int
deriving DecidableEq, Repr

/-- `sum(color_counts.values())`. -/
def sumCounts (c : ColorCounts) : Int :=
  c.white + c.blue + c.black + c.red + c.green + c.multicolored + c.colorless + c.land

/-- `color_counts["Blue"] += 1`. -/
def incBlue (c : ColorCounts) : ColorCounts := { c with blue := c.blue + 1 }

/-- `color_counts["Colorless"] += 1`. -/
def incColorless (c : ColorCounts) : ColorCounts := { c with colorless := c.colorless + 1 }

/-- `color_counts["Black"] += 1`. -/
def incBlack (c : ColorCounts) : ColorCounts := { c with black := c.black + 1 }

/-- `color_counts["Red"] += 1`. -/
def incRed (c : ColorCounts) : ColorCounts := { c with red := c.red + 1 }

/-- `color_counts["Green"] += 1`. -/
def incGreen (c : ColorCounts) : ColorCounts := { c with green := c.green + 1 }

/-- `color_counts["White"] += 1`. -/
def incWhite (c : ColorCounts) : ColorCounts := { c with white := c.white + 1 }

/-- `color_counts["Land"] += 1`. -/
def incLand (c : ColorCounts) : ColorCounts := { c with land := c.land + 1 }

/-- The manual adjustment order of `adjust_color_counts`:
`["Blue", "Colorless", "Black", "Red", "Green", "White", "Land"]`.
Note that `Multicolored` does not appear in this list. -/
def adjustOrder : List (ColorCounts → ColorCounts) :=
  [incBlue, incColorless, incBlack, incRed, incGreen, incWhite, incLand]

/-- One pass of the inner `for color in [...]` loop of `adjust_color_counts`,
including its `break` (returning as soon as the guard fails). -/
def forPass (cc : Int) : List (ColorCounts → ColorCounts) → ColorCounts → ColorCounts
  | [], c => c
  | u :: us, c => if sumCounts c < cc then forPass cc us (u c) else c

/-- The `while sum(color_counts.values()) < self.card_count` loop of
`adjust_color_counts`, written with explicit fuel (one unit per pass).
`adjust_color_counts` runs it with enough fuel; adequacy of the fuel is
proved below (`adjustLoopFueled_eq_adjustLoop`, claim C8). -/
def adjustLoop (cc : Int) : Nat → ColorCounts → ColorCounts
  | 0, c => c
  | n + 1, c => if sumCounts c < cc then adjustLoop cc n (forPass cc adjustOrder c) else c

/-- The deficit `card_count - sum(color_counts.values())`, clamped to `Nat`:
each pass of the while-loop that starts below the budget adds at least one
card, so this many passes always suffice. -/
def adjustFuel (cc : Int) (c : ColorCounts) : Nat := (cc - sumCounts c).toNat

/-- `CubeCreator.adjust_color_counts` (cube_creator.py lines 100-119), with
`cc` the configured `self.card_count`. -/
def adjust_color_counts (cc : Int) (c : ColorCounts) : ColorCounts :=
  adjustLoop cc (adjustFuel cc c) c

/-- Fuel-counting variant of the while-loop that reports `none` when the fuel
runs out while the guard still holds; used to state termination (claim C8). -/
def adjustLoopFueled (cc : Int) : Nat → ColorCounts → Option ColorCounts
  | 0, c => if sumCounts c < cc then none else some c
  | n + 1, c =>
    if sumCounts c < cc then adjustLoopFueled cc n (forPass cc adjustOrder c) else some c

/-- One full pass of the for-loop when no guard fails: each of the seven
listed categories is incremented once. -/
def incPass (c : ColorCounts) : ColorCounts :=
  { c with blue := c.blue + 1, colorless := c.colorless + 1, black := c.black + 1,
           red := c.red + 1, green := c.green + 1, white := c.white + 1, land := c.land + 1 }

/-! ## Numeric helpers

The quota arithmetic in `get_normalized_card_count` and
`calculate_inclusion_rate` runs on Python floats; the embedding uses exact
rationals.  `int(x)` truncates toward zero; `round(x, 4)` rounds half to
even. -/

/-- Python `int(q)`: truncation toward zero. -/
def pytrunc (q : ℚ) : Int := if 0 ≤ q then ⌊q⌋ else ⌈q⌉

/-- Python `round(q)` on an exact value: round to nearest, ties to even. -/
def pyRoundHalfEven (q : ℚ) : Int :=
  if q - ⌊q⌋ < 1 / 2 then ⌊q⌋
  else if 1 / 2 < q - ⌊q⌋ then ⌊q⌋ + 1
  else if ⌊q⌋ % 2 = 0 then ⌊q⌋ else ⌊q⌋ + 1

/-- Python `round(q, 4)`. -/
def round4 (q : ℚ) : ℚ := (pyRoundHalfEven (q * 10000) : ℚ) / 10000

/-! ## Cube selection pipeline: `CubeCreator.make_cube`

A row of the input DataFrame is modelled by the two columns the pipeline
reads (`name`, `'Color Category'`); a row of a per-color frequency frame by
its four columns plus the color of the pool it was built from (the frames in
`color_frames` carry their color by position in the dict; the field records
that provenance). -/

/-- A row of the aggregated input frame (columns used: `name`,
`'Color Category'`). -/
structure RawCard where
  name : String
  colorCategory : String
deriving DecidableEq, Repr

/-- A row of a per-color frequency frame: columns `name`, `Frequency`,
`'Inclusion Rate'`, `ELO`, plus the pool color it came from. -/
structure FreqCard where
  name : String
  frequency : Nat
  inclusionRate : ℚ
  elo : ℚ
  color : String
deriving DecidableEq, Repr

/-- `CARD_COLOR_MAP` (constants.py lines 16-37), as a dict lookup. -/
def cardColorMap (k : String) : Option String :=
  if k = "w" then some "White" else if k = "u" then some "Blue"
  else if k = "b" then some "Black" else if k = "r" then some "Red"
  else if k = "g" then some "Green" else if k = "m" then some "Multicolored"
  else if k = "c" then some "Colorless" else if k = "l" then some "Land"
  else if k = "White" then some "White" else if k = "Blue" then some "Blue"
  else if k = "Black" then some "Black" else if k = "Red" then some "Red"
  else if k = "Green" then some "Green" else if k = "Multicolored" then some "Multicolored"
  else if k = "Hybrid" then some "Multicolored" else if k = "Colorless" then some "Colorless"
  else if k = "Lands" then some "Land" else if k = "Land" then some "Land"
  else none

/-- The eight members of `COLORS_SET` in one fixed order.  The Python code
iterates `list(COLORS_SET)`, whose order is arbitrary (set iteration); every
property proved below is independent of that order. -/
def COLORS_LIST : List String :=
  ["White", "Blue", "Black", "Red", "Green", "Multicolored", "Colorless", "Land"]

/-- One `card_counter[card_name] += 1` step on an insertion-ordered counter
(`defaultdict(int)`). -/
def addCount : List (String × Nat) → String → List (String × Nat)
  | [], n => [(n, 1)]
  | (k, c) :: rest, n => if k = n then (k, c + 1) :: rest else (k, c) :: addCount rest n

/-- `CubeCreator.count_card_frequencies`: counts occurrences of each name
among the rows whose `'Color Category'` is `CARD_COLOR_MAP[color]`. -/
def count_card_frequencies (frame : List RawCard) (color : String) : List (String × Nat) :=
  (frame.filter (fun r => decide (cardColorMap color = some r.colorCategory))).foldl
    (fun acc r => addCount acc r.name) []

/-- Ordering used by `create_frequency_dataframe`:
`sorted(..., key=lambda kv: kv[1], reverse=True)` — descending count,
original order on ties (Python `sorted` is stable). -/
def freqGE (a b : String × Nat) : Prop := b.2 ≤ a.2

instance : DecidableRel freqGE := fun a b => by unfold freqGE; infer_instance

/-- `CubeCreator.create_frequency_dataframe`: the (name, Frequency) rows in
descending-frequency order. -/
def create_frequency_dataframe (freqs : List (String × Nat)) : List (String × Nat) :=
  List.insertionSort freqGE freqs

/-- `CubeCreator.calculate_inclusion_rate`: adds the column
`round(Frequency / number_of_sampled_cubes, 4)`. -/
def calculate_inclusion_rate (freqs : List (String × Nat)) (number_of_sampled_cubes : Nat) :
    List (String × Nat × ℚ) :=
  freqs.map (fun p => (p.1, p.2, round4 ((p.2 : ℚ) / (number_of_sampled_cubes : ℚ))))

/-- Ordering used by `sort_and_reset_dataframe` and by the final sort in
`make_cube`: `sort_values(['Inclusion Rate', 'ELO'], ascending=[False,
False])` — descending Inclusion Rate, ties broken by descending ELO.  pandas
leaves the order of fully tied rows unspecified (quicksort); the embedding
fixes one. -/
def irEloRel (a b : FreqCard) : Prop :=
  b.inclusionRate < a.inclusionRate ∨ (b.inclusionRate = a.inclusionRate ∧ b.elo ≤ a.elo)

instance : DecidableRel irEloRel := fun a b => by unfold irEloRel; infer_instance

instance : IsTotal FreqCard irEloRel :=
  ⟨fun a b => by
    unfold irEloRel
    rcases lt_trichotomy a.inclusionRate b.inclusionRate with h | h | h
    · exact Or.inr (Or.inl h)
    · rcases le_total b.elo a.elo with he | he
      · exact Or.inl (Or.inr ⟨h.symm, he⟩)
      · exact Or.inr (Or.inr ⟨h, he⟩)
    · exact Or.inl (Or.inl h)⟩

instance : IsTrans FreqCard irEloRel :=
  ⟨fun a b c hab hbc => by
    unfold irEloRel at *
    rcases hab with h1 | ⟨e1, l1⟩
    · rcases hbc with h2 | ⟨e2, l2⟩
      · exact Or.inl (h2.trans h1)
      · exact Or.inl (e2.trans_lt h1)
    · rcases hbc with h2 | ⟨e2, l2⟩
      · exact Or.inl (h2.trans_le e1.le)
      · exact Or.inr ⟨e2.trans e1, l2.trans l1⟩⟩

/-- `CubeCreator.sort_and_reset_dataframe`. -/
def sort_and_reset_dataframe (rows : List FreqCard) : List FreqCard :=
  List.insertionSort irEloRel rows

/-- `CubeCreator.make_color_frame` (with `get_elo_scores` supplied by the
oracle `eloF`, which stands for `self.elo_fetcher.get_card_elo`): frequency
count, descending-frequency frame, inclusion rate, ELO column, final sort.
The `color` field records the pool the row belongs to. -/
def make_color_frame (eloF : String → ℚ) (n : Nat) (color : String) (frame : List RawCard) :
    List FreqCard :=
  let withIR := calculate_inclusion_rate
    (create_frequency_dataframe (count_card_frequencies frame color)) n
  sort_and_reset_dataframe (withIR.map (fun t =>
    { name := t.1, frequency := t.2.1, inclusionRate := t.2.2, elo := eloF t.1, color := color }))

/-! ### Binary64 rounding

`get_normalized_card_count` runs on Python floats (IEEE binary64).  Each
operation produces the correctly rounded double of the exact result
(round-to-nearest, ties to even, 53-bit significand).  The model `fl` rounds
an exact rational to that grid; the exponent is unbounded (no overflow or
subnormals), which agrees with binary64 on every magnitude this program can
produce.  Python `int / int` rounds the exact quotient directly;
`float * int` first converts the int (one rounding), then rounds the
product. -/

/-- Fuel-counted floor of log base two (`natLog2F n n` is total for `n ≥ 1`;
the fuel strictly bounds the iteration count since the argument halves). -/
def natLog2F : Nat → Nat → Nat
  | 0, _ => 0
  | f + 1, n => if 2 ≤ n then natLog2F f (n / 2) + 1 else 0

/-- Floor of log base two of a positive natural number. -/
def natLog2 (n : Nat) : Nat := natLog2F n n

/-- Floor of log base two of a positive rational, from the bit lengths of its
numerator and denominator. -/
def floorLog2Q (q : ℚ) : Int :=
  let a := q.num.toNat
  let b := q.den
  if b * 2 ^ natLog2 a ≤ a * 2 ^ natLog2 b then (natLog2 a : Int) - natLog2 b
  else (natLog2 a : Int) - natLog2 b - 1

/-- Correctly rounded binary64 value of a positive rational: scale the
significand into `[2^52, 2^53)`, round to nearest with ties to even, scale
back. -/
def flPos (q : ℚ) : ℚ :=
  let e := floorLog2Q q
  if e ≤ 52 then
    let k : Nat := (52 - e).toNat
    (pyRoundHalfEven (q * 2 ^ k) : ℚ) / 2 ^ k
  else
    let k : Nat := (e - 52).toNat
    (pyRoundHalfEven (q / 2 ^ k) : ℚ) * 2 ^ k

/-- Correctly rounded binary64 value of an exact rational. -/
def fl (q : ℚ) : ℚ :=
  if q = 0 then 0
  else if 0 < q then flPos q
  else -(flPos (-q))

/-- `CubeCreator.get_normalized_card_count` (cube_creator.py lines 82-98),
with each Python float operation correctly rounded by `fl`:
`average = int(color_rows / n)` (int/int true division rounds the exact
quotient once), `percent = average / card_count` (again one rounding), and
`int(percent * card_count)` (the int is converted to float, then the product
is rounded). -/
def get_normalized_card_count (card_count : Int) (color : String) (frame : List RawCard)
    (number_of_sampled_cubes : Nat) : Int :=
  let colorRows : Nat := (frame.filter (fun r => decide (r.colorCategory = color))).length
  let average_cards_in_cube_per_color : Int :=
    pytrunc (fl ((colorRows : ℚ) / (number_of_sampled_cubes : ℚ)))
  let normalized_percent : ℚ :=
    fl ((average_cards_in_cube_per_color : ℚ) / (card_count : ℚ))
  pytrunc (fl (normalized_percent * fl ((card_count : ℚ))))

/-- `CubeCreator.get_color_counts`: per-color normalized counts followed by
the rounding remediation. -/
def get_color_counts (card_count : Int) (frame : List RawCard) (n : Nat) : ColorCounts :=
  adjust_color_counts card_count
    { white := get_normalized_card_count card_count "White" frame n
      blue := get_normalized_card_count card_count "Blue" frame n
      black := get_normalized_card_count card_count "Black" frame n
      red := get_normalized_card_count card_count "Red" frame n
      green := get_normalized_card_count card_count "Green" frame n
      multicolored := get_normalized_card_count card_count "Multicolored" frame n
      colorless := get_normalized_card_count card_count "Colorless" frame n
      land := get_normalized_card_count card_count "Land" frame n }

/-- Reading the `card_counts` dict back by key. -/
def countsOf (c : ColorCounts) (color : String) : Int :=
  if color = "White" then c.white else if color = "Blue" then c.blue
  else if color = "Black" then c.black else if color = "Red" then c.red
  else if color = "Green" then c.green else if color = "Multicolored" then c.multicolored
  else if color = "Colorless" then c.colorless else if color = "Land" then c.land
  else 0

/-- `CubeCreator.remove_blacklist_cards`: drop rows whose name is
blacklisted (`none` models an unset blacklist path). -/
def remove_blacklist_cards (blacklist : Option (List String)) (frame : List RawCard) :
    List RawCard :=
  match blacklist with
  | none => frame
  | some names => frame.filter (fun r => decide (r.name ∉ names))

/-- The concatenation
`pd.concat([color_frames[xx][:card_counts[xx]] for xx in color_frames])`
inside `make_cube`. -/
def cube_pool (eloF : String → ℚ) (blacklist : Option (List String)) (card_count : Int)
    (n : Nat) (frame : List RawCard) : List FreqCard :=
  let counts := countsOf (get_color_counts card_count frame n)
  let frame2 := remove_blacklist_cards blacklist frame
  (COLORS_LIST.map (fun c => (make_color_frame eloF n c frame2).take (counts c).toNat)).flatten

/-- `CubeCreator.make_cube` (cube_creator.py lines 27-61), up to the point
where the selected rows are written out: per-color truncation to the quota,
global sort by descending Inclusion Rate then descending ELO, truncation to
`card_count`. -/
def make_cube (eloF : String → ℚ) (blacklist : Option (List String)) (card_count : Int)
    (n : Nat) (frame : List RawCard) : List FreqCard :=
  (sort_and_reset_dataframe (cube_pool eloF blacklist card_count n frame)).take card_count.toNat

/-! ## ELO fetcher: `ELOFetcher` (elo_fetcher.py)

The cache is a dict from card name to `{"elo": ..., "lastUpdated": ...}`;
we model it as an insertion-ordered association list.  `elo` may be `None`
(`Option ℚ`); `lastUpdated` is a timestamp in days (`Option Int`, `none`
modelling an entry without a usable timestamp).  Exceptions are modelled with
`Except` over the error kinds that can reach `update_card_elo`. -/

/-- Python exception kinds reachable from the fetch path: `KeyError` (the one
`update_card_elo` catches), the `NameError` latent in
`get_card_by_name_with_max_id`, and network / parse failures raised out of
`fetch_data` and the regex extraction, which nothing on this path catches. -/
inductive PyError where
  | keyError
  | nameError
  | netError
  | parseError
deriving DecidableEq, Repr

/-- One `elo_cache` entry: `{"elo": ..., "lastUpdated": ...}`. -/
structure EloEntry where
  elo : Option ℚ
  lastUpdated : Option Int
deriving DecidableEq, Repr

/-- The in-memory `elo_cache` dict. -/
abbrev Cache := List (String × EloEntry)

/-- `self.elo_cache.get(card_name)`. -/
def cacheGet (cache : Cache) (k : String) : Option EloEntry :=
  (cache.find? (fun kv => decide (kv.1 = k))).map (fun kv => kv.2)

/-- `self.elo_cache[card_name] = entry`: in-place update, insertion order
preserved, append when the key is new. -/
def cacheSet : Cache → String → EloEntry → Cache
  | [], k, v => [(k, v)]
  | (k', v') :: rest, k, v =>
    if k' = k then (k, v) :: rest else (k', v') :: cacheSet rest k v

/-- `cube_updated_more_than_a_week_ago` (elo_fetcher.py lines 38-42; despite
the name the window is one day): stays `False` unless the entry exists and
has a truthy `lastUpdated`. -/
def cube_updated_more_than_a_week_ago (cache_data : Option EloEntry) (today : Int) : Bool :=
  match cache_data with
  | some e =>
    match e.lastUpdated with
    | some t => decide (1 < today - t)
    | none => false
  | none => false

/-- The update guard of `get_card_elo`:
`cache_data is None or cache_data.get('elo') is None or
cube_updated_more_than_a_week_ago`. -/
def needsUpdate (cache_data : Option EloEntry) (today : Int) : Bool :=
  match cache_data with
  | none => true
  | some e => e.elo.isNone || cube_updated_more_than_a_week_ago cache_data today

/-- `ELOFetcher.update_card_elo` (elo_fetcher.py lines 53-73).  `fetch` is
the outcome of `await self.get_card_elo_from_cube_cobra(card_name)`; only
`KeyError` is caught, every other exception leaves the cache untouched and
propagates. -/
def update_card_elo (cache : Cache) (card_name : String)
    (fetch : Except PyError (Option ℚ)) (now : Int) : Except PyError Cache :=
  match fetch with
  | .error .keyError => .ok cache
  | .error e => .error e
  | .ok elo_score =>
    if elo_score.isSome || (cacheGet cache card_name).isNone then
      .ok (cacheSet cache card_name ⟨elo_score, some now⟩)
    else
      match cacheGet cache card_name with
      | some entry => .ok (cacheSet cache card_name ⟨entry.elo, some now⟩)
      | none => .ok cache

deriving instance DecidableEq for Except

/-- Observable outcome of one `get_card_elo` call: the returned value (or
propagated exception), the cache afterwards, and whether the update path
(`await self.update_card_elo(...)`) was taken. -/
structure GetEloResult where
  result : Except PyError (Option ℚ)
  cache : Cache
  updated : Bool
deriving DecidableEq, Repr

/-- `ELOFetcher.get_card_elo` (elo_fetcher.py lines 36-51).  `-1.0` is the
sentinel for a name still absent after the update attempt; the final
`return cache_data["elo"]` can surface a stored `None`. -/
def get_card_elo (cache : Cache) (today : Int) (fetch : Except PyError (Option ℚ))
    (now : Int) (card_name : String) : GetEloResult :=
  let cache_data := cacheGet cache card_name
  if needsUpdate cache_data today then
    match update_card_elo cache card_name fetch now with
    | .error e => ⟨.error e, cache, true⟩
    | .ok cache2 =>
      match cacheGet cache2 card_name with
      | none => ⟨.ok (some (-1)), cache2, true⟩
      | some entry => ⟨.ok entry.elo, cache2, true⟩
  else
    match cache_data with
    | some entry => ⟨.ok entry.elo, cache, false⟩
    | none => ⟨.ok (some (-1)), cache, false⟩

/-! ### Name resolution and printing-id fallback -/

/-- `self.scryfall_cache`: card name to the list of printing ids of its
versions (the only field the fetch path reads is `card["id"]`). -/
abbrev ScryCache := List (String × List String)

/-- `self.scryfall_cache.get(name)`. -/
def scryGet (sc : ScryCache) (k : String) : Option (List String) :=
  (sc.find? (fun kv => decide (kv.1 = k))).map (fun kv => kv.2)

/-- Python `\s` character class (whitespace). -/
def pyIsSpace (ch : Char) : Bool :=
  ch = ' ' || ch = '\t' || ch = '\n' || ch = '\r'

/-- `re.match(f"{name}\s*//.*", card)` for a literal `name`: `card` starts
with `name`, then optional whitespace, then `//`. -/
def matchExtPre (name card : String) : Bool :=
  name.toList.isPrefixOf card.toList &&
    [ '/', '/' ].isPrefixOf ((card.toList.drop name.toList.length).dropWhile pyIsSpace)

/-- Does `//` occur at the head of `s`, followed by optional whitespace and
then `name`? -/
def postMatchAt (name : List Char) : List Char → Bool
  | '/' :: '/' :: rest => name.isPrefixOf (rest.dropWhile pyIsSpace)
  | _ => false

/-- `re.match(f".*?//\s*{name}", card)` for a literal `name`: some position
of `card` starts `//`, optional whitespace, `name`. -/
def matchExtPost (name card : String) : Bool :=
  card.toList.tails.any (postMatchAt name.toList)

/-- `ELOFetcher.get_extended_name`: first cache key matching the first
regex, else first key matching the second, else `None`. -/
def get_extended_name (sc : ScryCache) (name : String) : Option String :=
  match sc.find? (fun kv => matchExtPre name kv.1) with
  | some kv => some kv.1
  | none => (sc.find? (fun kv => matchExtPost name kv.1)).map (fun kv => kv.1)

/-- Python string comparison on two id strings: lexicographic by code
point. -/
def pyStrLtAux : List Char → List Char → Bool
  | [], [] => false
  | [], _ :: _ => true
  | _ :: _, [] => false
  | a :: as, b :: bs => if a < b then true else if b < a then false else pyStrLtAux as bs

/-- Python `a < b` on strings. -/
def pyStrLt (a b : String) : Bool := pyStrLtAux a.toList b.toList

/-- `max(card_versions, key=lambda card: card["id"])`: the first version with
the lexicographically largest id (the `[]` case is unreachable behind the
non-emptiness guards; Python `max` would raise `ValueError` there). -/
def maxIdCard : List String → String
  | [] => ""
  | v :: rest => rest.foldl (fun m x => if pyStrLt m x then x else m) v

/-- The recursive call `get_card_by_name_with_max_id(extended_name,
extended_name=True)` unrolled (it never recurses again).  When the extended
key has no versions the source falls into its last branch, which reads the
undefined local `scryfall_data` and raises `NameError`. -/
def get_card_by_name_with_max_id_ext (sc : ScryCache) (name : String) :
    Except PyError (Option String) :=
  let card_versions := (scryGet sc name).getD []
  if card_versions = [] then .error .nameError
  else .ok (some (maxIdCard card_versions))

/-- `ELOFetcher.get_card_by_name_with_max_id` (outer call,
`extended_name=False`): `.ok (some id)` models returning a version dict
(`"id" in scryfall_data` true), `.ok none` models returning `{}`. -/
def get_card_by_name_with_max_id (sc : ScryCache) (name : String) :
    Except PyError (Option String) :=
  let card_versions := (scryGet sc name).getD []
  if card_versions = [] then
    match get_extended_name sc name with
    | some ext => get_card_by_name_with_max_id_ext sc ext
    | none => .ok none
  else .ok (some (maxIdCard card_versions))

/-- `ELOFetcher.get_elo_from_id_async` (elo_fetcher.py lines 157-164).
`eloPage` is the oracle for `fetch_data` on the Cube Cobra card page plus the
regex extraction: for a printing id it yields the Elo the page carries,
`none` when the page has no Elo data (the source logs and falls through,
returning `None`), or an uncaught exception. -/
def get_elo_from_id_async (eloPage : String → Except PyError (Option ℚ)) (card_id : String) :
    Except PyError (Option ℚ) :=
  eloPage card_id

/-- `ELOFetcher.try_multiple_ids_for_elo` (elo_fetcher.py lines 166-171):
first rating found over the versions in cache order; falling off the loop
returns `None`. -/
def try_multiple_ids_for_elo (eloPage : String → Except PyError (Option ℚ)) :
    List String → Except PyError (Option ℚ)
  | [] => .ok none
  | cid :: rest =>
    match get_elo_from_id_async eloPage cid with
    | .error e => .error e
    | .ok (some r) => .ok (some r)
    | .ok none => try_multiple_ids_for_elo eloPage rest

/-- `ELOFetcher.get_card_elo_from_cube_cobra` (elo_fetcher.py lines 75-86). -/
def get_card_elo_from_cube_cobra (sc : ScryCache)
    (eloPage : String → Except PyError (Option ℚ)) (card_name : String) :
    Except PyError (Option ℚ) :=
  match get_card_by_name_with_max_id sc card_name with
  | .error e => .error e
  | .ok (some cid) => get_elo_from_id_async eloPage cid
  | .ok none =>
    match scryGet sc card_name with
    | some vs => if vs ≠ [] then try_multiple_ids_for_elo eloPage vs else .ok (some 1200)
    | none => .ok (some 1200)

/-! ## Persistence: `to_pickle` / `from_pickle` (common.py lines 8-30)

The filesystem is a map from path to the stored object; `dill.dump` writes
the whole object to the file, `dill.load` reads it back (`none` models a
missing file, where `open` would raise). -/

/-- Paths to serialized objects of type `α`. -/
def FileSystem (α : Type) := String → Option α

/-- `to_pickle(data, path)`: serialize `data` wholesale to `path`. -/
def to_pickle {α : Type} (data : α) (path : String) (fs : FileSystem α) : FileSystem α :=
  fun p => if p = path then some data else fs p

/-- `from_pickle(path)`. -/
def from_pickle {α : Type} (path : String) (fs : FileSystem α) : Option α :=
  fs path

/-- `ELOFetcher.cache_file_path = Path(data_dir) / 'elo_cache.pickle'`. -/
def cache_file_path : String := "data/elo_cache.pickle"

/-- `ELOFetcher.save_cache` (elo_fetcher.py lines 33-34). -/
def save_cache (elo_cache : Cache) (fs : FileSystem Cache) : FileSystem Cache :=
  to_pickle elo_cache cache_file_path fs

/-- `ELOFetcher.load_cache` (elo_fetcher.py lines 30-31). -/
def load_cache (fs : FileSystem Cache) : Option Cache :=
  from_pickle cache_file_path fs

/-- Every updater in the adjustment order bumps exactly one of the seven
listed categories: the sum grows by one, every field is monotone, and the
`Multicolored` field is untouched. -/
theorem adjustOrder_step (u : ColorCounts → ColorCounts) (hu : u ∈ adjustOrder)
    (c : ColorCounts) :
    sumCounts (u c) = sumCounts c + 1 ∧
    c.white ≤ (u c).white ∧ c.blue ≤ (u c).blue ∧ c.black ≤ (u c).black ∧
    c.red ≤ (u c).red ∧ c.green ≤ (u c).green ∧ c.colorless ≤ (u c).colorless ∧
    c.land ≤ (u c).land ∧ (u c).multicolored = c.multicolored := by
  simp only [adjustOrder, List.mem_cons, List.not_mem_nil, or_false] at hu
  rcases hu with rfl | rfl | rfl | rfl | rfl | rfl | rfl <;>
    simp [sumCounts, incBlue, incColorless, incBlack, incRed, incGreen, incWhite, incLand] <;>
    omega

/-- A pass never pushes the sum past the budget: every increment is guarded by
`sum < card_count`. -/
theorem forPass_sum_le (cc : Int) (us : List (ColorCounts → ColorCounts))
    (hus : ∀ u ∈ us, ∀ c, sumCounts (u c) = sumCounts c + 1) :
    ∀ c : ColorCounts, sumCounts c ≤ cc → sumCounts (forPass cc us c) ≤ cc := by
  induction us with
  | nil => intro c h; simpa [forPass] using h
  | cons u us ih =>
    intro c h
    simp only [forPass]
    split
    · exact ih (fun v hv => hus v (List.mem_cons_of_mem _ hv)) (u c)
        (by rw [hus u (List.mem_cons_self _ _) c]; omega)
    · exact h

/-- A pass never decreases the sum. -/
theorem forPass_sum_mono (cc : Int) (us : List (ColorCounts → ColorCounts))
    (hus : ∀ u ∈ us, ∀ c, sumCounts (u c) = sumCounts c + 1) :
    ∀ c : ColorCounts, sumCounts c ≤ sumCounts (forPass cc us c) := by
  induction us with
  | nil => intro c; simp [forPass]
  | cons u us ih =>
    intro c
    simp only [forPass]
    split
    · have := ih (fun v hv => hus v (List.mem_cons_of_mem _ hv)) (u c)
      have := hus u (List.mem_cons_self _ _) c
      omega
    · exact le_refl _

/-- A pass that begins strictly below the budget strictly increases the sum
(the first guarded increment fires). -/
theorem forPass_sum_succ (cc : Int) (c : ColorCounts) (h : sumCounts c < cc) :
    sumCounts c + 1 ≤ sumCounts (forPass cc adjustOrder c) := by
  have hus : ∀ u ∈ adjustOrder, ∀ c, sumCounts (u c) = sumCounts c + 1 :=
    fun u hu c => (adjustOrder_step u hu c).1
  show sumCounts c + 1 ≤ sumCounts (forPass cc adjustOrder c)
  rw [show forPass cc adjustOrder c
      = forPass cc [incColorless, incBlack, incRed, incGreen, incWhite, incLand] (incBlue c) by
    simp [adjustOrder, forPass, h]]
  have hmono := forPass_sum_mono cc [incColorless, incBlack, incRed, incGreen, incWhite, incLand]
    (fun u hu c => (adjustOrder_step u (by simp [adjustOrder] at hu ⊢; tauto) c).1) (incBlue c)
  have hone : sumCounts (incBlue c) = sumCounts c + 1 :=
    (adjustOrder_step incBlue (by simp [adjustOrder]) c).1
  omega

/-- If the while-guard is false the loop returns immediately at any fuel. -/
theorem adjustLoop_stop (cc : Int) (c : ColorCounts) (h : ¬ sumCounts c < cc) :
    ∀ n, adjustLoop cc n c = c := by
  intro n; cases n <;> simp [adjustLoop, h]

/-- With fuel at least the deficit the fuelled loop never runs out. -/
theorem adjustLoopFueled_eq_adjustLoop (cc : Int) :
    ∀ n c, adjustFuel cc c ≤ n → adjustLoopFueled cc n c = some (adjustLoop cc n c) := by
  intro n
  induction n with
  | zero =>
    intro c h
    have : ¬ sumCounts c < cc := by simp [adjustFuel] at h; omega
    simp [adjustLoopFueled, adjustLoop, this]
  | succ n ih =>
    intro c h
    by_cases hg : sumCounts c < cc
    · have hstep := forPass_sum_succ cc c hg
      have : adjustFuel cc (forPass cc adjustOrder c) ≤ n := by
        simp only [adjustFuel] at h ⊢; omega
      simp [adjustLoopFueled, adjustLoop, hg, ih _ this]
    · simp [adjustLoopFueled, adjustLoop, hg]

/-- Any two sufficient fuels produce the same loop result. -/
theorem adjustLoop_congr (cc : Int) :
    ∀ n m c, adjustFuel cc c ≤ n → adjustFuel cc c ≤ m →
      adjustLoop cc n c = adjustLoop cc m c := by
  intro n
  induction n with
  | zero =>
    intro m c hn _
    have hstop : ¬ sumCounts c < cc := by simp [adjustFuel] at hn; omega
    rw [adjustLoop_stop cc c hstop, adjustLoop_stop cc c hstop]
  | succ n ih =>
    intro m c hn hm
    by_cases hg : sumCounts c < cc
    · cases m with
      | zero => exfalso; simp [adjustFuel] at hm; omega
      | succ m =>
        have hstep := forPass_sum_succ cc c hg
        have hn' : adjustFuel cc (forPass cc adjustOrder c) ≤ n := by
          simp only [adjustFuel] at hn ⊢; omega
        have hm' : adjustFuel cc (forPass cc adjustOrder c) ≤ m := by
          simp only [adjustFuel] at hm ⊢; omega
        simp only [adjustLoop, if_pos hg]
        exact ih m (forPass cc adjustOrder c) hn' hm'
    · rw [adjustLoop_stop cc c hg, adjustLoop_stop cc c hg]

/-- With sufficient fuel, a loop that starts at or below the budget ends
exactly on the budget. -/
theorem adjustLoop_exact (cc : Int) :
    ∀ n c, adjustFuel cc c ≤ n → sumCounts c ≤ cc →
      sumCounts (adjustLoop cc n c) = cc := by
  intro n
  induction n with
  | zero =>
    intro c hfuel hle
    have : ¬ sumCounts c < cc := by simp [adjustFuel] at hfuel; omega
    simp only [adjustLoop]
    omega
  | succ n ih =>
    intro c hfuel hle
    by_cases hg : sumCounts c < cc
    · have hsum := forPass_sum_succ cc c hg
      have hle' : sumCounts (forPass cc adjustOrder c) ≤ cc :=
        forPass_sum_le cc adjustOrder (fun u hu c => (adjustOrder_step u hu c).1) c hle
      have hfuel' : adjustFuel cc (forPass cc adjustOrder c) ≤ n := by
        simp only [adjustFuel] at hfuel ⊢; omega
      simp only [adjustLoop, if_pos hg]
      exact ih _ hfuel' hle'
    · simp only [adjustLoop, if_neg hg]
      omega

/-- A projection that no updater in a pass decreases is not decreased by the
pass. -/
theorem forPass_proj_mono (cc : Int) (g : ColorCounts → Int) :
    ∀ us : List (ColorCounts → ColorCounts), (∀ u ∈ us, ∀ c, g c ≤ g (u c)) →
      ∀ c, g c ≤ g (forPass cc us c) := by
  intro us
  induction us with
  | nil => intro _ c; simp [forPass]
  | cons u us ih =>
    intro hg c
    simp only [forPass]
    split
    · exact le_trans (hg u (List.mem_cons_self _ _) c)
        (ih (fun v hv => hg v (List.mem_cons_of_mem _ hv)) (u c))
    · exact le_refl _

/-- A projection that no updater decreases is not decreased by the whole
while-loop. -/
theorem adjustLoop_proj_mono (cc : Int) (g : ColorCounts → Int)
    (hg : ∀ u ∈ adjustOrder, ∀ c, g c ≤ g (u c)) :
    ∀ n c, g c ≤ g (adjustLoop cc n c) := by
  intro n
  induction n with
  | zero => intro c; simp [adjustLoop]
  | succ n ih =>
    intro c
    simp only [adjustLoop]
    split
    · exact le_trans (forPass_proj_mono cc g adjustOrder hg c) (ih _)
    · exact le_refl _

/-- A projection that every updater preserves is preserved by a pass. -/
theorem forPass_proj_eq (cc : Int) (g : ColorCounts → Int) :
    ∀ us : List (ColorCounts → ColorCounts), (∀ u ∈ us, ∀ c, g (u c) = g c) →
      ∀ c, g (forPass cc us c) = g c := by
  intro us
  induction us with
  | nil => intro _ c; simp [forPass]
  | cons u us ih =>
    intro hg c
    simp only [forPass]
    split
    · rw [ih (fun v hv => hg v (List.mem_cons_of_mem _ hv)) (u c),
        hg u (List.mem_cons_self _ _) c]
    · rfl

/-- A projection that every updater preserves is preserved by the whole
while-loop. -/
theorem adjustLoop_proj_eq (cc : Int) (g : ColorCounts → Int)
    (hg : ∀ u ∈ adjustOrder, ∀ c, g (u c) = g c) :
    ∀ n c, g (adjustLoop cc n c) = g c := by
  intro n
  induction n with
  | zero => intro c; simp [adjustLoop]
  | succ n ih =>
    intro c
    simp only [adjustLoop]
    split
    · rw [ih _, forPass_proj_eq cc g adjustOrder hg c]
    · rfl

/-- When the deficit is at least seven, no guard fails during the first pass
and each of the seven listed categories is incremented exactly once. -/
theorem forPass_full (cc : Int) (c : ColorCounts) (h : sumCounts c + 7 ≤ cc) :
    forPass cc adjustOrder c = incPass c := by
  simp only [sumCounts] at h
  simp only [adjustOrder, forPass]
  rw [if_pos, if_pos, if_pos, if_pos, if_pos, if_pos, if_pos] <;>
    first
      | rfl
      | (simp only [sumCounts, incBlue, incColorless, incBlack, incRed, incGreen, incWhite,
          incLand]
         omega)

/-- C1: rounding remediation restores the exact budget.  For every
per-category count dict whose values sum to at most `card_count`,
`adjust_color_counts` returns a dict whose values sum to exactly
`card_count`; a dict whose values already sum to at least `card_count` is
returned unchanged. -/
theorem C1_adjust_color_counts_budget (cc : Int) (c : ColorCounts) :
    (sumCounts c ≤ cc → sumCounts (adjust_color_counts cc c) = cc) ∧
    (cc ≤ sumCounts c → adjust_color_counts cc c = c) := by
  constructor
  · intro h
    exact adjustLoop_exact cc (adjustFuel cc c) c le_rfl h
  · intro h
    have hz : adjustFuel cc c = 0 := by unfold adjustFuel; omega
    rw [adjust_color_counts, hz]
    rfl

/-- Witness for C1 at a dict summing exactly to the budget, where both
hypotheses hold at once. -/
theorem C1_adjust_color_counts_budget_witness :
    sumCounts (⟨1, 1, 1, 0, 0, 1, 1, 0⟩ : ColorCounts) ≤ 5 ∧
    (5 : Int) ≤ sumCounts (⟨1, 1, 1, 0, 0, 1, 1, 0⟩ : ColorCounts) ∧
    sumCounts (adjust_color_counts 5 ⟨1, 1, 1, 0, 0, 1, 1, 0⟩) = 5 ∧
    adjust_color_counts 5 ⟨1, 1, 1, 0, 0, 1, 1, 0⟩ = ⟨1, 1, 1, 0, 0, 1, 1, 0⟩ :=
  ⟨by decide, by decide,
   (C1_adjust_color_counts_budget 5 ⟨1, 1, 1, 0, 0, 1, 1, 0⟩).1 (by decide),
   (C1_adjust_color_counts_budget 5 ⟨1, 1, 1, 0, 0, 1, 1, 0⟩).2 (by decide)⟩

/-- C6 counterexample: starting from all-zero counts with `card_count = 8`
the deficit is exactly eight, yet the `Multicolored` entry never receives a
card — the fixup list of `adjust_color_counts` holds only the other seven
categories. -/
theorem C6_counterexample :
    (8 : Int) ≤ 8 - sumCounts (⟨0, 0, 0, 0, 0, 0, 0, 0⟩ : ColorCounts) ∧
    (adjust_color_counts 8 ⟨0, 0, 0, 0, 0, 0, 0, 0⟩).multicolored =
      (⟨0, 0, 0, 0, 0, 0, 0, 0⟩ : ColorCounts).multicolored := by
  decide

/-- C6 (amended): the while-loop remainder fixup operates over the seven
categories Blue, Colorless, Black, Red, Green, White and Land — Multicolored
is not in the list.  Whenever the deficit is at least seven, each of those
seven categories receives at least one additional card, and the Multicolored
entry is never changed. -/
theorem C6_adjust_seven_categories (cc : Int) (c : ColorCounts)
    (h : 7 ≤ cc - sumCounts c) :
    c.blue + 1 ≤ (adjust_color_counts cc c).blue ∧
    c.colorless + 1 ≤ (adjust_color_counts cc c).colorless ∧
    c.black + 1 ≤ (adjust_color_counts cc c).black ∧
    c.red + 1 ≤ (adjust_color_counts cc c).red ∧
    c.green + 1 ≤ (adjust_color_counts cc c).green ∧
    c.white + 1 ≤ (adjust_color_counts cc c).white ∧
    c.land + 1 ≤ (adjust_color_counts cc c).land ∧
    (adjust_color_counts cc c).multicolored = c.multicolored := by
  have hg : sumCounts c < cc := by omega
  obtain ⟨k, hk⟩ : ∃ k, adjustFuel cc c = k + 1 :=
    ⟨adjustFuel cc c - 1, by unfold adjustFuel; omega⟩
  have hrw : adjust_color_counts cc c = adjustLoop cc k (incPass c) := by
    rw [adjust_color_counts, hk]
    simp only [adjustLoop, if_pos hg, forPass_full cc c (by omega)]
  rw [hrw]
  refine ⟨?_, ?_, ?_, ?_, ?_, ?_, ?_, ?_⟩
  · have := adjustLoop_proj_mono cc (fun x => x.blue)
      (fun u hu c => (adjustOrder_step u hu c).2.2.1) k (incPass c)
    simpa [incPass] using this
  · have := adjustLoop_proj_mono cc (fun x => x.colorless)
      (fun u hu c => (adjustOrder_step u hu c).2.2.2.2.2.2.1) k (incPass c)
    simpa [incPass] using this
  · have := adjustLoop_proj_mono cc (fun x => x.black)
      (fun u hu c => (adjustOrder_step u hu c).2.2.2.1) k (incPass c)
    simpa [incPass] using this
  · have := adjustLoop_proj_mono cc (fun x => x.red)
      (fun u hu c => (adjustOrder_step u hu c).2.2.2.2.1) k (incPass c)
    simpa [incPass] using this
  · have := adjustLoop_proj_mono cc (fun x => x.green)
      (fun u hu c => (adjustOrder_step u hu c).2.2.2.2.2.1) k (incPass c)
    simpa [incPass] using this
  · have := adjustLoop_proj_mono cc (fun x => x.white)
      (fun u hu c => (adjustOrder_step u hu c).2.1) k (incPass c)
    simpa [incPass] using this
  · have := adjustLoop_proj_mono cc (fun x => x.land)
      (fun u hu c => (adjustOrder_step u hu c).2.2.2.2.2.2.2.1) k (incPass c)
    simpa [incPass] using this
  · have := adjustLoop_proj_eq cc (fun x => x.multicolored)
      (fun u hu c => (adjustOrder_step u hu c).2.2.2.2.2.2.2.2) k (incPass c)
    simpa [incPass] using this

/-- Witness for the amended C6 at all-zero counts and `card_count = 20`. -/
theorem C6_adjust_seven_categories_witness :
    (7 : Int) ≤ 20 - sumCounts (⟨0, 0, 0, 0, 0, 0, 0, 0⟩ : ColorCounts) ∧
    ((⟨0, 0, 0, 0, 0, 0, 0, 0⟩ : ColorCounts).blue + 1 ≤
        (adjust_color_counts 20 ⟨0, 0, 0, 0, 0, 0, 0, 0⟩).blue ∧
      (⟨0, 0, 0, 0, 0, 0, 0, 0⟩ : ColorCounts).colorless + 1 ≤
        (adjust_color_counts 20 ⟨0, 0, 0, 0, 0, 0, 0, 0⟩).colorless ∧
      (⟨0, 0, 0, 0, 0, 0, 0, 0⟩ : ColorCounts).black + 1 ≤
        (adjust_color_counts 20 ⟨0, 0, 0, 0, 0, 0, 0, 0⟩).black ∧
      (⟨0, 0, 0, 0, 0, 0, 0, 0⟩ : ColorCounts).red + 1 ≤
        (adjust_color_counts 20 ⟨0, 0, 0, 0, 0, 0, 0, 0⟩).red ∧
      (⟨0, 0, 0, 0, 0, 0, 0, 0⟩ : ColorCounts).green + 1 ≤
        (adjust_color_counts 20 ⟨0, 0, 0, 0, 0, 0, 0, 0⟩).green ∧
      (⟨0, 0, 0, 0, 0, 0, 0, 0⟩ : ColorCounts).white + 1 ≤
        (adjust_color_counts 20 ⟨0, 0, 0, 0, 0, 0, 0, 0⟩).white ∧
      (⟨0, 0, 0, 0, 0, 0, 0, 0⟩ : ColorCounts).land + 1 ≤
        (adjust_color_counts 20 ⟨0, 0, 0, 0, 0, 0, 0, 0⟩).land ∧
      (adjust_color_counts 20 ⟨0, 0, 0, 0, 0, 0, 0, 0⟩).multicolored =
        (⟨0, 0, 0, 0, 0, 0, 0, 0⟩ : ColorCounts).multicolored) :=
  ⟨by decide, C6_adjust_seven_categories 20 ⟨0, 0, 0, 0, 0, 0, 0, 0⟩ (by decide)⟩

/-- C8: the remediation loop terminates.  For every starting dict and every
integer `card_count`, some finite fuel makes the fuelled while-loop stop
(returning exactly what `adjust_color_counts` returns), because each pass
that begins below the budget strictly increases the total. -/
theorem C8_adjust_loop_terminates (cc : Int) (c : ColorCounts) :
    (∃ n, adjustLoopFueled cc n c = some (adjust_color_counts cc c)) ∧
    (sumCounts c < cc → sumCounts c < sumCounts (forPass cc adjustOrder c)) := by
  constructor
  · exact ⟨adjustFuel cc c, by
      rw [adjustLoopFueled_eq_adjustLoop cc (adjustFuel cc c) c le_rfl]; rfl⟩
  · intro h
    have := forPass_sum_succ cc c h
    omega

/-- Witness for C8 at all-zero counts and `card_count = 9`. -/
theorem C8_adjust_loop_terminates_witness :
    sumCounts (⟨0, 0, 0, 0, 0, 0, 0, 0⟩ : ColorCounts) < 9 ∧
    (∃ n, adjustLoopFueled 9 n ⟨0, 0, 0, 0, 0, 0, 0, 0⟩ =
        some (adjust_color_counts 9 ⟨0, 0, 0, 0, 0, 0, 0, 0⟩)) ∧
    sumCounts (⟨0, 0, 0, 0, 0, 0, 0, 0⟩ : ColorCounts) <
      sumCounts (forPass 9 adjustOrder ⟨0, 0, 0, 0, 0, 0, 0, 0⟩) :=
  ⟨by decide, (C8_adjust_loop_terminates 9 ⟨0, 0, 0, 0, 0, 0, 0, 0⟩).1,
   (C8_adjust_loop_terminates 9 ⟨0, 0, 0, 0, 0, 0, 0, 0⟩).2 (by decide)⟩

/-- C9: wholesale persistence round-trips.  `save_cache` writes the whole
cache dict to the single cache file, `load_cache` after `save_cache` returns
exactly the dict that was saved, and no other path is touched. -/
theorem C9_save_load_roundtrip (elo_cache : Cache) (fs : FileSystem Cache) :
    load_cache (save_cache elo_cache fs) = some elo_cache ∧
    (∀ p, p ≠ cache_file_path → save_cache elo_cache fs p = fs p) := by
  constructor
  · simp [load_cache, save_cache, from_pickle, to_pickle]
  · intro p hp
    simp [save_cache, to_pickle, hp]

/-- Witness for C9 on a one-entry cache over the empty filesystem. -/
theorem C9_save_load_roundtrip_witness :
    load_cache (save_cache [("X", ⟨some 1200, some 0⟩)] (fun _ => none)) =
      some [("X", ⟨some 1200, some 0⟩)] ∧
    "other" ≠ cache_file_path ∧
    save_cache [("X", ⟨some 1200, some 0⟩)] (fun _ => none) "other" =
      (fun _ => none : FileSystem Cache) "other" :=
  ⟨(C9_save_load_roundtrip [("X", ⟨some 1200, some 0⟩)] (fun _ => none)).1,
   by decide,
   (C9_save_load_roundtrip [("X", ⟨some 1200, some 0⟩)] (fun _ => none)).2 "other" (by decide)⟩

/-- Writing one key leaves every other key's entry untouched. -/
theorem cacheGet_set_ne (k name : String) (hk : k ≠ name) :
    ∀ (c : Cache) (v : EloEntry), cacheGet (cacheSet c name v) k = cacheGet c k := by
  intro c v
  induction c with
  | nil =>
    simp [cacheSet, cacheGet, List.find?, Ne.symm hk]
  | cons hd tl ih =>
    obtain ⟨k', v'⟩ := hd
    by_cases h1 : k' = name
    · subst h1
      simp [cacheSet, cacheGet, List.find?, Ne.symm hk, hk]
    · by_cases h2 : k' = k
      · subst h2
        simp [cacheSet, cacheGet, List.find?, h1]
      · simp only [cacheSet, if_neg h1]
        simp only [cacheGet, List.find?, decide_eq_true_eq] at ih ⊢
        simp [h2, ih]

/-- Writing a key makes its entry the written value. -/
theorem cacheGet_set_eq (name : String) :
    ∀ (c : Cache) (v : EloEntry), cacheGet (cacheSet c name v) name = some v := by
  intro c v
  induction c with
  | nil => simp [cacheSet, cacheGet, List.find?]
  | cons hd tl ih =>
    obtain ⟨k', v'⟩ := hd
    by_cases h1 : k' = name
    · subst h1
      simp [cacheSet, cacheGet, List.find?]
    · simp only [cacheSet, if_neg h1]
      simp only [cacheGet, List.find?, decide_eq_true_eq] at ih ⊢
      simp [h1, ih]

/-- C10: failed refresh preserves the stored rating.  When the fetch yields
`None` for a name already cached, the entry keeps its stored elo and only its
`lastUpdated` timestamp is refreshed; and an update of one card never changes
the cache entry of any other card. -/
theorem C10_update_card_elo_frame (cache : Cache) (card_name : String) (now : Int) :
    (∀ e, cacheGet cache card_name = some e →
      update_card_elo cache card_name (.ok none) now =
        .ok (cacheSet cache card_name ⟨e.elo, some now⟩)) ∧
    (∀ (fetch : Except PyError (Option ℚ)) (k : String) (cache2 : Cache), k ≠ card_name →
      update_card_elo cache card_name fetch now = .ok cache2 →
      cacheGet cache2 k = cacheGet cache k) := by
  constructor
  · intro e he
    simp [update_card_elo, he]
  · intro fetch k cache2 hk hup
    match fetch with
    | .error .keyError =>
      simp only [update_card_elo] at hup
      cases hup
      rfl
    | .error .nameError => simp [update_card_elo] at hup
    | .error .netError => simp [update_card_elo] at hup
    | .error .parseError => simp [update_card_elo] at hup
    | .ok s =>
      simp only [update_card_elo] at hup
      by_cases hc : (s.isSome || (cacheGet cache card_name).isNone) = true
      · rw [if_pos hc] at hup
        cases hup
        exact cacheGet_set_ne k card_name hk cache _
      · rw [if_neg hc] at hup
        cases hg : cacheGet cache card_name with
        | none => rw [hg] at hup; cases hup; rfl
        | some entry =>
          rw [hg] at hup
          cases hup
          exact cacheGet_set_ne k card_name hk cache _

/-- Witness for C10 on a one-entry cache: the `None` refresh keeps the elo
and bumps the timestamp, and the other key "Y" is untouched. -/
theorem C10_update_card_elo_frame_witness :
    cacheGet [("X", ⟨some 5, some 0⟩)] "X" = some ⟨some 5, some 0⟩ ∧
    update_card_elo [("X", ⟨some 5, some 0⟩)] "X" (.ok none) 3 =
      .ok (cacheSet [("X", ⟨some 5, some 0⟩)] "X" ⟨some 5, some 3⟩) ∧
    "Y" ≠ "X" ∧
    update_card_elo [("X", ⟨some 5, some 0⟩)] "X" (.ok none) 3 =
      .ok [("X", ⟨some 5, some 3⟩)] ∧
    cacheGet [("X", ⟨some 5, some 3⟩)] "Y" = cacheGet [("X", ⟨some 5, some 0⟩)] "Y" :=
  ⟨by decide,
   (C10_update_card_elo_frame [("X", ⟨some 5, some 0⟩)] "X" 3).1 ⟨some 5, some 0⟩ (by decide),
   by decide,
   by decide,
   (C10_update_card_elo_frame [("X", ⟨some 5, some 0⟩)] "X" 3).2 (.ok none) "Y"
     [("X", ⟨some 5, some 3⟩)] (by decide) (by decide)⟩


/-- Characterization of the update guard being false: the entry exists, its
elo is set, and its timestamp is either absent (treated as fresh by the
source) or within the one-day window. -/
theorem needsUpdate_false_iff (cd : Option EloEntry) (today : Int) :
    needsUpdate cd today = false ↔
      ∃ e, cd = some e ∧ e.elo.isSome = true ∧
        (e.lastUpdated = none ∨ ∃ t, e.lastUpdated = some t ∧ today - t ≤ 1) := by
  constructor
  · intro h
    cases cd with
    | none => simp [needsUpdate] at h
    | some e =>
      cases he : e.elo with
      | none => simp [needsUpdate, he] at h
      | some v =>
        cases ht : e.lastUpdated with
        | none => exact ⟨e, rfl, by rw [he]; rfl, Or.inl ht⟩
        | some t =>
          simp [needsUpdate, cube_updated_more_than_a_week_ago, he, ht] at h
          exact ⟨e, rfl, by rw [he]; rfl, Or.inr ⟨t, ht, by omega⟩⟩
  · rintro ⟨e, rfl, helo, hcase⟩
    cases he : e.elo with
    | none => rw [he] at helo; simp at helo
    | some v =>
      rcases hcase with ht | ⟨t, ht, hle⟩
      · simp [needsUpdate, cube_updated_more_than_a_week_ago, he, ht]
      · simp [needsUpdate, cube_updated_more_than_a_week_ago, he, ht,
          decide_eq_false_iff_not]
        omega

/-- The `updated` flag of `get_card_elo` is exactly the update guard. -/
theorem get_card_elo_updated_eq (cache : Cache) (today : Int)
    (fetch : Except PyError (Option ℚ)) (now : Int) (card_name : String) :
    (get_card_elo cache today fetch now card_name).updated =
      needsUpdate (cacheGet cache card_name) today := by
  simp only [get_card_elo]
  split
  · next h =>
    rw [h]
    split
    · rfl
    · split <;> rfl
  · next h =>
    simp only [Bool.not_eq_true] at h
    rw [h]
    split <;> rfl

/-- An update whose fetch succeeded never raises. -/
theorem update_card_elo_ok (cache : Cache) (card_name : String) (s : Option ℚ) (now : Int) :
    ∃ cache2, update_card_elo cache card_name (.ok s) now = .ok cache2 := by
  simp only [update_card_elo]
  split
  · exact ⟨_, rfl⟩
  · split
    · exact ⟨_, rfl⟩
    · exact ⟨_, rfl⟩

/-- After an update whose fetch succeeded, the name's entry exists and its
timestamp is the write time. -/
theorem update_card_elo_stamps (cache : Cache) (card_name : String) (s : Option ℚ)
    (now : Int) (cache2 : Cache)
    (hup : update_card_elo cache card_name (.ok s) now = .ok cache2) :
    ∃ e2, cacheGet cache2 card_name = some e2 ∧ e2.lastUpdated = some now := by
  simp only [update_card_elo] at hup
  split at hup
  · cases hup
    exact ⟨_, cacheGet_set_eq card_name cache _, rfl⟩
  · next hc =>
    split at hup
    · next entry heq =>
      cases hup
      exact ⟨_, cacheGet_set_eq card_name cache _, rfl⟩
    · next heq =>
      rw [heq] at hc
      simp at hc

/-- C2 counterexample to the claim's biconditional and rewrite guarantee.
First input: the entry for "X" has a stored elo but no `lastUpdated`
timestamp at all — not a timestamp within the staleness window — yet
`get_card_elo` serves it from the cache with no update attempt (the guard
treats a missing timestamp as fresh).  Second input: the entry for "Y" is
stale, the update path is taken, but the fetch raises `KeyError`, and the
call returns with the cache entry not rewritten. -/
theorem C2_counterexample :
    (cacheGet [("X", ⟨some 1400, none⟩)] "X" = some ⟨some 1400, none⟩ ∧
      (get_card_elo [("X", ⟨some 1400, none⟩)] 100 (.ok (some 1500)) 100 "X").updated =
        false) ∧
    ((get_card_elo [("Y", ⟨some 1300, some 0⟩)] 10 (.error .keyError) 10 "Y").updated =
        true ∧
      (get_card_elo [("Y", ⟨some 1300, some 0⟩)] 10 (.error .keyError) 10 "Y").cache =
        [("Y", ⟨some 1300, some 0⟩)]) := by
  decide

/-- C2 (amended): cache-first lookup with time-based invalidation.
`get_card_elo` returns the cached rating with no update attempt exactly when
an entry exists, its stored elo is not `None`, and its `lastUpdated`
timestamp is absent or within the staleness window; on that path the cache
is unchanged and the cached elo is returned.  When the entry is missing, has
no elo, or has a timestamp older than the window, the update runs, and
whenever the fetch does not raise, the entry is rewritten — at least its
`lastUpdated` refreshed to the write time — before the result is returned. -/
theorem C2_get_card_elo_cache_first (cache : Cache) (today : Int)
    (fetch : Except PyError (Option ℚ)) (now : Int) (card_name : String) :
    ((get_card_elo cache today fetch now card_name).updated = false ↔
      ∃ e, cacheGet cache card_name = some e ∧ e.elo.isSome = true ∧
        (e.lastUpdated = none ∨ ∃ t, e.lastUpdated = some t ∧ today - t ≤ 1)) ∧
    (∀ e, cacheGet cache card_name = some e →
      (get_card_elo cache today fetch now card_name).updated = false →
      (get_card_elo cache today fetch now card_name).result = .ok e.elo ∧
      (get_card_elo cache today fetch now card_name).cache = cache) ∧
    (∀ s, fetch = .ok s →
      (get_card_elo cache today fetch now card_name).updated = true →
      ∃ e2, cacheGet (get_card_elo cache today fetch now card_name).cache card_name =
          some e2 ∧ e2.lastUpdated = some now) := by
  refine ⟨?_, ?_, ?_⟩
  · rw [get_card_elo_updated_eq]
    exact needsUpdate_false_iff (cacheGet cache card_name) today
  · intro e he hupd
    rw [get_card_elo_updated_eq] at hupd
    rw [he] at hupd
    simp [get_card_elo, he, hupd]
  · intro s hs hupd
    subst hs
    rw [get_card_elo_updated_eq] at hupd
    obtain ⟨cache2, hc2⟩ := update_card_elo_ok cache card_name s now
    obtain ⟨e2, he2, hstamp⟩ := update_card_elo_stamps cache card_name s now cache2 hc2
    refine ⟨e2, ?_, hstamp⟩
    simp only [get_card_elo, hc2]
    rw [if_pos hupd]
    rw [he2]
    exact he2

/-- Witness for the amended C2 at two concrete inputs: a fresh cached entry
served without update, and an empty cache updated from a successful fetch. -/
theorem C2_get_card_elo_cache_first_witness :
    (cacheGet [("X", ⟨some 1400, some 5⟩)] "X" = some ⟨some 1400, some 5⟩ ∧
      (get_card_elo [("X", ⟨some 1400, some 5⟩)] 6 (.ok (some 99)) 6 "X").updated = false ∧
      (get_card_elo [("X", ⟨some 1400, some 5⟩)] 6 (.ok (some 99)) 6 "X").result =
        .ok (some 1400) ∧
      (get_card_elo [("X", ⟨some 1400, some 5⟩)] 6 (.ok (some 99)) 6 "X").cache =
        [("X", ⟨some 1400, some 5⟩)]) ∧
    ((get_card_elo [] 0 (.ok (some 7)) 3 "Z").updated = true ∧
      ∃ e2, cacheGet (get_card_elo [] 0 (.ok (some 7)) 3 "Z").cache "Z" = some e2 ∧
        e2.lastUpdated = some 3) := by
  have h1 := (C2_get_card_elo_cache_first [("X", ⟨some 1400, some 5⟩)] 6
    (.ok (some 99)) 6 "X").2.1 ⟨some 1400, some 5⟩ (by decide) (by decide)
  have h2 := (C2_get_card_elo_cache_first [] 0 (.ok (some 7)) 3 "Z").2.2
    (some 7) rfl (by decide)
  exact ⟨⟨by decide, by decide, h1.1, h1.2⟩, ⟨by decide, h2⟩⟩

/-- C3 counterexample: a network failure raised while updating is not caught
(`update_card_elo` catches only `KeyError`) and propagates out of
`get_card_elo`. -/
theorem C3_counterexample :
    (get_card_elo [] 0 (.error .netError) 0 "Z").updated = true ∧
    (get_card_elo [] 0 (.error .netError) 0 "Z").result = .error .netError := by
  decide

/-- C3 (amended): failure yields a sentinel for the caught case.  Unless the
fetch raises an exception other than `KeyError`, `get_card_elo` raises
nothing, and whenever no cache entry exists for the name after the update
attempt it returns the sentinel `-1.0`.  (Exceptions other than `KeyError` do
propagate to the caller.) -/
theorem C3_get_card_elo_sentinel (cache : Cache) (today : Int)
    (fetch : Except PyError (Option ℚ)) (now : Int) (card_name : String)
    (hf : fetch = .error .keyError ∨ ∃ s, fetch = .ok s) :
    (cacheGet (get_card_elo cache today fetch now card_name).cache card_name = none →
      (get_card_elo cache today fetch now card_name).result = .ok (some (-1))) ∧
    (∀ e, (get_card_elo cache today fetch now card_name).result ≠ .error e) := by
  have main : ∀ cache2, update_card_elo cache card_name fetch now = .ok cache2 →
      (cacheGet (get_card_elo cache today fetch now card_name).cache card_name = none →
        (get_card_elo cache today fetch now card_name).result = .ok (some (-1))) ∧
      (∀ e, (get_card_elo cache today fetch now card_name).result ≠ .error e) := by
    intro cache2 hup
    simp only [get_card_elo, hup]
    split
    · split
      · exact ⟨fun _ => rfl, fun e hcon => Except.noConfusion hcon⟩
      · next entry heq =>
        exact ⟨fun hn => Option.noConfusion (heq.symm.trans hn),
          fun e hcon => Except.noConfusion hcon⟩
    · split
      · next entry heq =>
        exact ⟨fun hn => Option.noConfusion (heq.symm.trans hn),
          fun e hcon => Except.noConfusion hcon⟩
      · exact ⟨fun _ => rfl, fun e hcon => Except.noConfusion hcon⟩
  rcases hf with hf | ⟨s, hf⟩
  · subst hf
    exact main cache rfl
  · subst hf
    obtain ⟨cache2, hc2⟩ := update_card_elo_ok cache card_name s now
    exact main cache2 hc2

/-- Witness for the amended C3: a `KeyError` on an empty cache is swallowed
and the sentinel is returned. -/
theorem C3_get_card_elo_sentinel_witness :
    cacheGet (get_card_elo [] 0 (.error .keyError) 0 "Q").cache "Q" = none ∧
    (get_card_elo [] 0 (.error .keyError) 0 "Q").result = .ok (some (-1)) ∧
    (∀ e, (get_card_elo [] 0 (.error .keyError) 0 "Q").result ≠ .error e) :=
  ⟨by decide,
   (C3_get_card_elo_sentinel [] 0 (.error .keyError) 0 "Q" (Or.inl rfl)).1 (by decide),
   (C3_get_card_elo_sentinel [] 0 (.error .keyError) 0 "Q" (Or.inl rfl)).2⟩

/-- C4 counterexample: the name "CardA" has two cached printings; the
maximum-id printing "idB" yields no rating while the other printing "idA"
does.  The claim predicts the remaining printing is tried and `1500.0`
returned; the code consults only the maximum-id page and returns `None`. -/
theorem C4_counterexample :
    get_card_elo_from_cube_cobra [("CardA", ["idB", "idA"])]
        (fun cid => if cid = "idA" then .ok (some 1500) else .ok none) "CardA" =
      .ok none ∧
    try_multiple_ids_for_elo
        (fun cid => if cid = "idA" then .ok (some 1500) else .ok none) ["idB", "idA"] =
      .ok (some 1500) := by
  decide

/-- C4 (amended): whenever the name has a non-empty cached version list, the
resolver returns the maximum-id printing, and `get_card_elo_from_cube_cobra`
returns exactly that one printing's page result — even when it is `None`; the
remaining printings are not consulted.  `try_multiple_ids_for_elo` itself
does try ids in cache order, returning the first rating found and `None` only
when every page yields none, but it is reached only when the name resolution
produced no id while the direct cache lookup for the name is non-empty. -/
theorem C4_max_id_only (sc : ScryCache) (eloPage : String → Except PyError (Option ℚ))
    (card_name : String) (vs : List String) (hvs : scryGet sc card_name = some vs)
    (hne : vs ≠ []) :
    get_card_elo_from_cube_cobra sc eloPage card_name =
      get_elo_from_id_async eloPage (maxIdCard vs) ∧
    (∀ (l1 : List String) (cid : String) (l2 : List String) (r : ℚ),
      (∀ u ∈ l1, eloPage u = .ok none) → eloPage cid = .ok (some r) →
      try_multiple_ids_for_elo eloPage (l1 ++ cid :: l2) = .ok (some r)) ∧
    (∀ l : List String, (∀ u ∈ l, eloPage u = .ok none) →
      try_multiple_ids_for_elo eloPage l = .ok none) := by
  refine ⟨?_, ?_, ?_⟩
  · have h1 : get_card_by_name_with_max_id sc card_name = .ok (some (maxIdCard vs)) := by
      simp only [get_card_by_name_with_max_id, hvs, Option.getD_some, if_neg hne]
    simp only [get_card_elo_from_cube_cobra, h1]
  · intro l1 cid l2 r h1 hcid
    induction l1 with
    | nil => simp [try_multiple_ids_for_elo, get_elo_from_id_async, hcid]
    | cons u us ih =>
      have hu : eloPage u = .ok none := h1 u (List.mem_cons_self _ _)
      simp only [List.cons_append, try_multiple_ids_for_elo, get_elo_from_id_async, hu]
      exact ih (fun v hv => h1 v (List.mem_cons_of_mem _ hv))
  · intro l hl
    induction l with
    | nil => rfl
    | cons u us ih =>
      have hu : eloPage u = .ok none := hl u (List.mem_cons_self _ _)
      simp only [try_multiple_ids_for_elo, get_elo_from_id_async, hu]
      exact ih (fun v hv => hl v (List.mem_cons_of_mem _ hv))

/-- Witness for the amended C4 on a one-printing cache and a page oracle that
rates only the id "y". -/
theorem C4_max_id_only_witness :
    scryGet [("C", ["x"])] "C" = some ["x"] ∧ (["x"] : List String) ≠ [] ∧
    get_card_elo_from_cube_cobra [("C", ["x"])]
        (fun cid => if cid = "y" then .ok (some 5) else .ok none) "C" =
      get_elo_from_id_async (fun cid => if cid = "y" then .ok (some 5) else .ok none)
        (maxIdCard ["x"]) ∧
    try_multiple_ids_for_elo (fun cid => if cid = "y" then .ok (some 5) else .ok none)
        (["x"] ++ "y" :: []) = .ok (some 5) ∧
    try_multiple_ids_for_elo (fun cid => if cid = "y" then .ok (some 5) else .ok none)
        ["x"] = .ok none :=
  ⟨by decide, by decide,
   (C4_max_id_only [("C", ["x"])] (fun cid => if cid = "y" then .ok (some 5) else .ok none)
      "C" ["x"] (by decide) (by decide)).1,
   (C4_max_id_only [("C", ["x"])] (fun cid => if cid = "y" then .ok (some 5) else .ok none)
      "C" ["x"] (by decide) (by decide)).2.1 ["x"] "y" [] 5 (by decide) (by decide),
   (C4_max_id_only [("C", ["x"])] (fun cid => if cid = "y" then .ok (some 5) else .ok none)
      "C" ["x"] (by decide) (by decide)).2.2 ["x"] (by decide)⟩

/-- Every row of a per-color frame carries that pool's color. -/
theorem make_color_frame_color (eloF : String → ℚ) (n : Nat) (color : String)
    (frame : List RawCard) :
    ∀ x ∈ make_color_frame eloF n color frame, x.color = color := by
  intro x hx
  simp only [make_color_frame, sort_and_reset_dataframe, List.mem_insertionSort,
    List.mem_map] at hx
  obtain ⟨t, _, rfl⟩ := hx
  rfl

/-- Counting one color over the per-color truncated pools: only that color's
chunk contributes, and it holds at most its quota. -/
theorem countP_take_flatten_le (pool : String → List FreqCard) (k : String → Nat)
    (hc : ∀ c x, x ∈ pool c → x.color = c) (c : String) :
    ∀ L : List String, L.Nodup →
      ((L.map (fun u => (pool u).take (k u))).flatten).countP
          (fun x => decide (x.color = c)) ≤ k c := by
  intro L
  induction L with
  | nil => intro _; simp
  | cons u us ih =>
    intro hnd
    simp only [List.map_cons, List.flatten_cons, List.countP_append]
    by_cases hu : u = c
    · subst hu
      have h1 : ((pool u).take (k u)).countP (fun x => decide (x.color = u)) ≤ k u :=
        le_trans (List.countP_le_length _) (List.length_take_le _ _)
      have h2 : ((us.map (fun v => (pool v).take (k v))).flatten).countP
          (fun x => decide (x.color = u)) = 0 := by
        rw [List.countP_eq_zero]
        intro a ha
        simp only [List.mem_flatten, List.mem_map] at ha
        obtain ⟨l, ⟨v, hv, rfl⟩, hal⟩ := ha
        have hav : a.color = v := hc v a (List.mem_of_mem_take hal)
        have hvne : v ≠ u := by
          rintro rfl
          exact (List.nodup_cons.mp hnd).1 hv
        simp [hav, hvne]
      omega
    · have h1 : ((pool u).take (k u)).countP (fun x => decide (x.color = c)) = 0 := by
        rw [List.countP_eq_zero]
        intro a ha
        have hav : a.color = u := hc u a (List.mem_of_mem_take ha)
        simp [hav, hu]
      have h2 := ih (List.nodup_cons.mp hnd).2
      omega

/-- In a sorted list, everything kept by `take` relates to everything in the
corresponding `drop`. -/
theorem sorted_take_drop {α : Type} (r : α → α → Prop) (l : List α) (n : Nat)
    (hs : List.Sorted r l) : ∀ x ∈ l.take n, ∀ y ∈ l.drop n, r x y := by
  intro x hx y hy
  have hp : List.Pairwise r (l.take n ++ l.drop n) := by
    rw [List.take_append_drop]
    exact hs
  exact (List.pairwise_append.mp hp).2.2 x hx y hy

/-- C5: per-category quotas bound the final selection.  `make_cube` keeps at
most `card_count` rows in total, draws at most the per-color quota from each
color pool, and the kept rows are the highest-ranked of the pool under
descending Inclusion Rate with ties broken by descending ELO: the result is
sorted by that order and every kept row ranks at least as high as every row
it cut. -/
theorem C5_make_cube_quota (eloF : String → ℚ) (blacklist : Option (List String))
    (card_count : Int) (n : Nat) (frame : List RawCard) :
    (make_cube eloF blacklist card_count n frame).length ≤ card_count.toNat ∧
    (∀ color, (make_cube eloF blacklist card_count n frame).countP
        (fun x => decide (x.color = color)) ≤
      (countsOf (get_color_counts card_count frame n) color).toNat) ∧
    List.Sorted irEloRel (make_cube eloF blacklist card_count n frame) ∧
    (∀ x ∈ make_cube eloF blacklist card_count n frame,
      ∀ y ∈ (sort_and_reset_dataframe (cube_pool eloF blacklist card_count n frame)).drop
          card_count.toNat, irEloRel x y) := by
  have hsorted : List.Sorted irEloRel
      (sort_and_reset_dataframe (cube_pool eloF blacklist card_count n frame)) :=
    List.sorted_insertionSort irEloRel _
  refine ⟨?_, ?_, ?_, ?_⟩
  · exact List.length_take_le _ _
  · intro color
    have hsub : List.Sublist (make_cube eloF blacklist card_count n frame)
        (sort_and_reset_dataframe (cube_pool eloF blacklist card_count n frame)) :=
      List.take_sublist _ _
    have hperm : (sort_and_reset_dataframe
          (cube_pool eloF blacklist card_count n frame)).countP
          (fun x => decide (x.color = color)) =
        (cube_pool eloF blacklist card_count n frame).countP
          (fun x => decide (x.color = color)) :=
      (List.perm_insertionSort irEloRel _).countP_eq _
    have hpool : (cube_pool eloF blacklist card_count n frame).countP
          (fun x => decide (x.color = color)) ≤
        (countsOf (get_color_counts card_count frame n) color).toNat := by
      have := countP_take_flatten_le
        (fun c => make_color_frame eloF n c (remove_blacklist_cards blacklist frame))
        (fun c => (countsOf (get_color_counts card_count frame n) c).toNat)
        (fun c x hx => make_color_frame_color eloF n c _ x hx) color COLORS_LIST (by decide)
      exact this
    exact le_trans (le_trans (hsub.countP_le _) hperm.le) hpool
  · exact List.Pairwise.sublist (List.take_sublist _ _) hsorted
  · exact sorted_take_drop irEloRel _ card_count.toNat hsorted

set_option maxRecDepth 8000 in
unseal Rat.add Rat.mul Rat.inv Rat.sub in
/-- Witness for C5: two Blue rows, one sampled cube, budget one — row "A" is
kept, row "B" (tied rank) is cut. -/
theorem C5_make_cube_quota_witness :
    (make_cube (fun _ => 1200) none 1 1 [⟨"A", "Blue"⟩, ⟨"B", "Blue"⟩]).length ≤
      (1 : Int).toNat ∧
    (make_cube (fun _ => 1200) none 1 1 [⟨"A", "Blue"⟩, ⟨"B", "Blue"⟩]).countP
        (fun x => decide (x.color = "Blue")) ≤
      (countsOf (get_color_counts 1 [⟨"A", "Blue"⟩, ⟨"B", "Blue"⟩] 1) "Blue").toNat ∧
    (⟨"A", 1, 1, 1200, "Blue"⟩ : FreqCard) ∈
      make_cube (fun _ => 1200) none 1 1 [⟨"A", "Blue"⟩, ⟨"B", "Blue"⟩] ∧
    (⟨"B", 1, 1, 1200, "Blue"⟩ : FreqCard) ∈
      (sort_and_reset_dataframe
        (cube_pool (fun _ => 1200) none 1 1 [⟨"A", "Blue"⟩, ⟨"B", "Blue"⟩])).drop
        (1 : Int).toNat ∧
    irEloRel ⟨"A", 1, 1, 1200, "Blue"⟩ ⟨"B", 1, 1, 1200, "Blue"⟩ :=
  ⟨(C5_make_cube_quota (fun _ => 1200) none 1 1 [⟨"A", "Blue"⟩, ⟨"B", "Blue"⟩]).1,
   (C5_make_cube_quota (fun _ => 1200) none 1 1 [⟨"A", "Blue"⟩, ⟨"B", "Blue"⟩]).2.1 "Blue",
   by decide,
   by decide,
   (C5_make_cube_quota (fun _ => 1200) none 1 1 [⟨"A", "Blue"⟩, ⟨"B", "Blue"⟩]).2.2.2
     ⟨"A", 1, 1, 1200, "Blue"⟩ (by decide) ⟨"B", 1, 1, 1200, "Blue"⟩ (by decide)⟩

set_option maxRecDepth 8000 in
unseal Rat.add Rat.mul Rat.inv Rat.sub in
/-- C7 counterexample: one Blue row, one sampled cube, `card_count = 49`.
The exact floor is `⌊1 / 1⌋ = 1`, but in correctly rounded binary64
arithmetic `1 / 49` rounds down and `fl(fl(1/49) * 49)` is the double just
below `1` (`(2^53 - 1) / 2^53`), so the program truncates to `0`: the
normalize-then-rescale does change the value. -/
theorem C7_counterexample :
    (0 : Int) < 49 ∧ (0 : Nat) < 1 ∧
    get_normalized_card_count 49 "Blue" [⟨"A", "Blue"⟩] 1 = 0 ∧
    ⌊((([(⟨"A", "Blue"⟩ : RawCard)].filter
        (fun r => decide (r.colorCategory = "Blue"))).length : ℚ) / ((1 : Nat) : ℚ))⌋ =
      1 := by
  exact ⟨by decide, by decide, by decide, by decide⟩

/-- The fuel-counted log2 brackets its argument between consecutive powers of
two whenever the fuel is at least the argument. -/
theorem natLog2F_bounds :
    ∀ f n, 0 < n → n ≤ f → 2 ^ natLog2F f n ≤ n ∧ n < 2 ^ (natLog2F f n + 1) := by
  intro f
  induction f with
  | zero => intro n h1 h2; omega
  | succ f ih =>
    intro n h1 h2
    by_cases h : 2 ≤ n
    · have hrec := ih (n / 2) (by omega) (by omega)
      simp only [natLog2F, if_pos h]
      obtain ⟨hl, hr⟩ := hrec
      constructor
      · rw [pow_succ]
        omega
      · rw [pow_succ] at hr ⊢
        rw [pow_succ]
        omega
    · simp only [natLog2F, if_neg h]
      simp only [pow_zero, zero_add, pow_one]
      omega

/-- `natLog2` brackets every positive natural number. -/
theorem natLog2_bounds (n : Nat) (h : 0 < n) :
    2 ^ natLog2 n ≤ n ∧ n < 2 ^ (natLog2 n + 1) :=
  natLog2F_bounds n n h le_rfl

/-- Round-half-even of an integer is the integer. -/
theorem pyRoundHalfEven_intCast (m : Int) : pyRoundHalfEven (m : ℚ) = m := by
  simp [pyRoundHalfEven, Int.floor_intCast]

/-- Round-half-even never drops below the floor. -/
theorem le_pyRoundHalfEven (q : ℚ) : ⌊q⌋ ≤ pyRoundHalfEven q := by
  unfold pyRoundHalfEven
  split_ifs <;> omega

/-- Round-half-even never exceeds the floor plus one. -/
theorem pyRoundHalfEven_le (q : ℚ) : pyRoundHalfEven q ≤ ⌊q⌋ + 1 := by
  unfold pyRoundHalfEven
  split_ifs <;> omega

/-- Round-half-even of a non-negative value is non-negative. -/
theorem pyRoundHalfEven_nonneg (x : ℚ) (hx : 0 ≤ x) : 0 ≤ pyRoundHalfEven x :=
  le_trans (Int.floor_nonneg.mpr hx) (le_pyRoundHalfEven x)

/-- `floorLog2Q` brackets every positive rational between consecutive powers
of two. -/
theorem floorLog2Q_bounds (q : ℚ) (hq : 0 < q) :
    (2 : ℚ) ^ floorLog2Q q ≤ q ∧ q < (2 : ℚ) ^ (floorLog2Q q + 1) := by
  have hnum : 0 < q.num := Rat.num_pos.mpr hq
  set a : Nat := q.num.toNat with ha
  set b : Nat := q.den with hb
  have ha0 : 0 < a := by omega
  have hb0 : 0 < b := q.den_pos
  have hanum : ((a : ℤ)) = q.num := Int.toNat_of_nonneg hnum.le
  have hqa : (a : ℚ) / (b : ℚ) = q := by
    rw [← Rat.num_div_den q]
    congr 1
    exact_mod_cast hanum
  obtain ⟨hla, hla2⟩ := natLog2_bounds a ha0
  obtain ⟨hlb, hlb2⟩ := natLog2_bounds b hb0
  have hbQ : (0 : ℚ) < (b : ℚ) := by exact_mod_cast hb0
  simp only [floorLog2Q]
  rw [← ha, ← hb]
  set La := natLog2 a with hLa
  set Lb := natLog2 b with hLb
  split_ifs with hc
  · constructor
    · rw [zpow_sub₀ (two_ne_zero), zpow_natCast, zpow_natCast, ← hqa,
        div_le_div_iff₀ (by positivity) hbQ, mul_comm ((2:ℚ) ^ La) _]
      exact_mod_cast hc
    · rw [show ((La : ℤ) - Lb + 1) = ((La + 1 : ℕ) : ℤ) - (Lb : ℤ) by push_cast; ring,
        zpow_sub₀ (two_ne_zero), zpow_natCast, zpow_natCast, ← hqa,
        div_lt_div_iff₀ hbQ (by positivity)]
      have hnat : a * 2 ^ Lb < 2 ^ (La + 1) * b :=
        lt_of_lt_of_le (Nat.mul_lt_mul_of_lt_of_le hla2 le_rfl (by positivity))
          (Nat.mul_le_mul_left _ hlb)
      exact_mod_cast hnat
  · constructor
    · rw [show ((La : ℤ) - Lb - 1) = ((La : ℕ) : ℤ) - ((Lb + 1 : ℕ) : ℤ) by push_cast; ring,
        zpow_sub₀ (two_ne_zero), zpow_natCast, zpow_natCast, ← hqa,
        div_le_div_iff₀ (by positivity) hbQ]
      have hnat : 2 ^ La * b ≤ a * 2 ^ (Lb + 1) :=
        le_trans (Nat.mul_le_mul_right _ hla) (Nat.mul_le_mul_left _ hlb2.le)
      exact_mod_cast hnat
    · rw [show ((La : ℤ) - Lb - 1 + 1) = ((La : ℕ) : ℤ) - (Lb : ℤ) by ring,
        zpow_sub₀ (two_ne_zero), zpow_natCast, zpow_natCast, ← hqa,
        div_lt_div_iff₀ hbQ (by positivity), mul_comm ((2:ℚ) ^ La) _]
      have hnat : a * 2 ^ Lb < b * 2 ^ La := by omega
      exact_mod_cast hnat

/-- The bracketing exponent is unique, so `floorLog2Q` is characterized by
its bounds. -/
theorem floorLog2Q_unique (q : ℚ) (hq : 0 < q) (E : ℤ)
    (h1 : (2 : ℚ) ^ E ≤ q) (h2 : q < (2 : ℚ) ^ (E + 1)) : floorLog2Q q = E := by
  obtain ⟨b1, b2⟩ := floorLog2Q_bounds q hq
  by_contra hne
  rcases lt_or_gt_of_ne hne with hlt | hgt
  · have := zpow_le_zpow_right₀ (one_le_two : (1:ℚ) ≤ 2)
      (show floorLog2Q q + 1 ≤ E by omega)
    linarith
  · have := zpow_le_zpow_right₀ (one_le_two : (1:ℚ) ≤ 2)
      (show E + 1 ≤ floorLog2Q q by omega)
    linarith

/-- A positive rational whose scaled significand is an integer is already on
the binary64 grid: rounding returns it unchanged. -/
theorem flPos_eq_self (q : ℚ) (E : ℤ) (hE : floorLog2Q q = E) (he : E ≤ 52)
    (m : ℤ) (hm : (m : ℚ) = q * 2 ^ ((52 - E).toNat)) : flPos q = q := by
  simp only [flPos, hE]
  rw [if_pos he, ← hm, pyRoundHalfEven_intCast, hm]
  exact mul_div_cancel_right₀ q (pow_ne_zero _ two_ne_zero)

/-- Rounding a representable value through `fl` returns it unchanged. -/
theorem fl_eq_self_of (q : ℚ) (hq : 0 < q) (E : ℤ) (hE : floorLog2Q q = E) (he : E ≤ 52)
    (m : ℤ) (hm : (m : ℚ) = q * 2 ^ ((52 - E).toNat)) : fl q = q := by
  simp only [fl]
  rw [if_neg hq.ne', if_pos hq]
  exact flPos_eq_self q E hE he m hm

/-- `fl 0 = 0`. -/
theorem fl_zero : fl 0 = 0 := by
  simp [fl]

/-- Rounding preserves non-negativity. -/
theorem flPos_nonneg (q : ℚ) (hq : 0 ≤ q) : 0 ≤ flPos q := by
  simp only [flPos]
  split
  · exact div_nonneg (by exact_mod_cast pyRoundHalfEven_nonneg _ (by positivity)) (by positivity)
  · exact mul_nonneg (by exact_mod_cast pyRoundHalfEven_nonneg _ (by positivity)) (by positivity)

/-- `fl` preserves non-negativity. -/
theorem fl_nonneg (q : ℚ) (hq : 0 ≤ q) : 0 ≤ fl q := by
  simp only [fl]
  split_ifs with h0 hpos
  · exact le_refl 0
  · exact flPos_nonneg q hq
  · exact absurd (lt_of_le_of_ne hq (Ne.symm h0)) hpos

/-- Rounding a positive value below `2^(E+1)` stays at or below `2^(E+1)`. -/
theorem flPos_le_zpow (q : ℚ) (hq : 0 < q) (E : ℤ) (hE : floorLog2Q q = E) (he : E ≤ 52) :
    flPos q ≤ (2 : ℚ) ^ (E + 1) := by
  obtain ⟨hb1, hb2⟩ := floorLog2Q_bounds q hq
  rw [hE] at hb1 hb2
  simp only [flPos, hE]
  rw [if_pos he]
  have hk : (((52 - E).toNat : ℤ)) = 52 - E := Int.toNat_of_nonneg (by omega)
  have h2 : ((2 : ℚ) ^ ((52 - E).toNat)) = (2 : ℚ) ^ ((52 : ℤ) - E) := by
    rw [← zpow_natCast, hk]
  have hxlt : q * 2 ^ ((52 - E).toNat) < (2 : ℚ) ^ ((53 : ℕ)) := by
    calc q * 2 ^ ((52 - E).toNat) < 2 ^ (E + 1) * 2 ^ ((52 - E).toNat) :=
          mul_lt_mul_of_pos_right hb2 (by positivity)
      _ = (2 : ℚ) ^ ((53 : ℕ)) := by
          rw [h2, ← zpow_add₀ (two_ne_zero : (2:ℚ) ≠ 0),
            show E + 1 + (52 - E) = ((53 : ℕ) : ℤ) by push_cast; ring, zpow_natCast]
  have hfl : (pyRoundHalfEven (q * 2 ^ ((52 - E).toNat)) : ℤ) ≤ 2 ^ (53 : ℕ) := by
    have hfloor : ⌊q * 2 ^ ((52 - E).toNat)⌋ < 2 ^ (53 : ℕ) := by
      rw [Int.floor_lt]
      exact_mod_cast hxlt
    have := pyRoundHalfEven_le (q * 2 ^ ((52 - E).toNat))
    omega
  calc (pyRoundHalfEven (q * 2 ^ ((52 - E).toNat)) : ℚ) / 2 ^ ((52 - E).toNat)
      ≤ (2 : ℚ) ^ ((53 : ℕ)) / 2 ^ ((52 - E).toNat) :=
        (div_le_div_iff_of_pos_right (by positivity)).mpr (by exact_mod_cast hfl)
    _ = (2 : ℚ) ^ (E + 1) := by
        rw [h2, ← zpow_natCast (2 : ℚ) (53 : ℕ), ← zpow_sub₀ (two_ne_zero : (2:ℚ) ≠ 0),
          show ((53 : ℕ) : ℤ) - (52 - E) = E + 1 by push_cast; ring]

/-- Truncation toward zero agrees with the floor on non-negative values. -/
theorem pytrunc_eq_floor (q : ℚ) (h : 0 ≤ q) : pytrunc q = ⌊q⌋ := by
  unfold pytrunc
  rw [if_pos h]

/-- The body of `get_normalized_card_count`, with its `let` chain spelled
out. -/
theorem get_normalized_card_count_eq (card_count : Int) (color : String)
    (frame : List RawCard) (n : Nat) :
    get_normalized_card_count card_count color frame n =
      pytrunc (fl (fl ((pytrunc (fl
          (((frame.filter (fun r => decide (r.colorCategory = color))).length : ℚ) /
            (n : ℚ))) : ℚ) / (card_count : ℚ)) * fl ((card_count : ℚ)))) := rfl

/-- A natural number below `2^52` is exactly representable in binary64. -/
theorem fl_natCast_small (C : Nat) (hsize : (C : ℚ) < 2 ^ (52 : ℕ)) :
    fl ((C : ℚ)) = (C : ℚ) := by
  rcases Nat.eq_zero_or_pos C with h | h
  · rw [h, Nat.cast_zero, fl_zero]
  · have hCQ : (0 : ℚ) < (C : ℚ) := by exact_mod_cast h
    obtain ⟨hb1, hb2⟩ := floorLog2Q_bounds ((C : ℚ)) hCQ
    have hEcle : floorLog2Q ((C : ℚ)) ≤ 52 := by
      by_contra hE
      push_neg at hE
      have h1 : (2 : ℚ) ^ ((52 : ℤ)) ≤ (2 : ℚ) ^ floorLog2Q ((C : ℚ)) :=
        zpow_le_zpow_right₀ one_le_two (by omega)
      have h52 : ((2 : ℚ) ^ ((52 : ℤ))) = (2 : ℚ) ^ (52 : ℕ) := by
        rw [show ((52 : ℤ)) = ((52 : ℕ) : ℤ) by norm_num, zpow_natCast]
      linarith
    apply fl_eq_self_of _ hCQ (floorLog2Q ((C : ℚ))) rfl hEcle
      ((C : ℤ) * 2 ^ ((52 - floorLog2Q ((C : ℚ))).toNat))
    push_cast
    ring

/-- The normalize-then-rescale of `get_normalized_card_count` is exact when
the card count is a power of two: scaling a double by `2^p` and back is
lossless, so the quota equals the truncated average. -/
theorem quota_float_aux (p : Nat) (hp : p ≤ 52) (C : Nat) (n : Nat) (hn : 0 < n)
    (hsize : (C : ℚ) < 2 ^ (52 : ℕ)) :
    pytrunc (fl (fl ((pytrunc (fl ((C : ℚ) / (n : ℚ))) : ℚ) / (((2 : Int) ^ p : ℤ) : ℚ)) *
      fl ((((2 : Int) ^ p : ℤ) : ℚ)))) = pytrunc (fl ((C : ℚ) / (n : ℚ))) := by
  set q1 : ℚ := (C : ℚ) / (n : ℚ) with hq1
  set avg : Int := pytrunc (fl q1) with havg
  have hq1nn : (0 : ℚ) ≤ q1 := by rw [hq1]; positivity
  have hfl1 : (0 : ℚ) ≤ fl q1 := fl_nonneg q1 hq1nn
  have havg0 : 0 ≤ avg := by
    rw [havg, pytrunc_eq_floor _ hfl1]
    exact Int.floor_nonneg.mpr hfl1
  have hccQ : ((((2 : Int) ^ p : ℤ)) : ℚ) = (2 : ℚ) ^ p := by push_cast; ring
  rw [hccQ]
  rcases eq_or_lt_of_le havg0 with h0 | hpos
  · rw [← h0]
    simp only [Int.cast_zero, zero_div, fl_zero, zero_mul]
    rw [pytrunc_eq_floor 0 le_rfl, Int.floor_zero]
  · have hcc_pos : (0 : ℚ) < (2 : ℚ) ^ p := by positivity
    have hEcc : floorLog2Q ((2 : ℚ) ^ p) = (p : ℤ) := by
      apply floorLog2Q_unique _ hcc_pos
      · rw [zpow_natCast]
      · rw [show ((p : ℤ) + 1) = ((p + 1 : ℕ) : ℤ) by push_cast; ring, zpow_natCast]
        exact pow_lt_pow_right₀ one_lt_two (Nat.lt_succ_self p)
    have hflcc : fl ((2 : ℚ) ^ p) = (2 : ℚ) ^ p := by
      apply fl_eq_self_of _ hcc_pos (p : ℤ) hEcc (by exact_mod_cast hp) ((2 : ℤ) ^ (52 : ℕ))
      have hto : ((52 : ℤ) - (p : ℤ)).toNat = 52 - p := by omega
      rw [hto]
      have hsplit : (2 : ℚ) ^ p * (2 : ℚ) ^ (52 - p) = (2 : ℚ) ^ (52 : ℕ) := by
        rw [← pow_add]
        congr 1
        omega
      rw [hsplit]
      norm_cast
    have hq1pos : (0 : ℚ) < q1 := by
      rcases Nat.eq_zero_or_pos C with hC | hC
      · exfalso
        rw [havg, hq1, hC] at hpos
        simp only [Nat.cast_zero, zero_div, fl_zero] at hpos
        rw [pytrunc_eq_floor 0 le_rfl, Int.floor_zero] at hpos
        exact lt_irrefl 0 hpos
      · have hCQ : (0 : ℚ) < (C : ℚ) := by exact_mod_cast hC
        have hnQ : (0 : ℚ) < (n : ℚ) := by exact_mod_cast hn
        rw [hq1]
        exact div_pos hCQ hnQ
    obtain ⟨hq1b1, hq1b2⟩ := floorLog2Q_bounds q1 hq1pos
    have hq1lt : q1 < (2 : ℚ) ^ (52 : ℕ) := by
      rw [hq1]
      calc (C : ℚ) / (n : ℚ) ≤ (C : ℚ) :=
            div_le_self (by positivity) (by exact_mod_cast hn)
        _ < _ := hsize
    have h52 : ((2 : ℚ) ^ ((52 : ℤ))) = (2 : ℚ) ^ (52 : ℕ) := by
      rw [show ((52 : ℤ)) = ((52 : ℕ) : ℤ) by norm_num, zpow_natCast]
    have hE1le : floorLog2Q q1 ≤ 51 := by
      by_contra hE
      push_neg at hE
      have h1 : (2 : ℚ) ^ ((52 : ℤ)) ≤ (2 : ℚ) ^ floorLog2Q q1 :=
        zpow_le_zpow_right₀ one_le_two (by omega)
      linarith
    have hflq1le : fl q1 ≤ (2 : ℚ) ^ ((52 : ℤ)) := by
      have hfe : fl q1 = flPos q1 := by
        simp only [fl]
        rw [if_neg hq1pos.ne', if_pos hq1pos]
      rw [hfe]
      calc flPos q1 ≤ (2 : ℚ) ^ (floorLog2Q q1 + 1) :=
            flPos_le_zpow q1 hq1pos (floorLog2Q q1) rfl (by omega)
        _ ≤ (2 : ℚ) ^ ((52 : ℤ)) := zpow_le_zpow_right₀ one_le_two (by omega)
    have havgle : avg ≤ 2 ^ (52 : ℕ) := by
      rw [havg, pytrunc_eq_floor _ hfl1]
      have hcast : (((2 : ℤ) ^ (52 : ℕ) : ℤ) : ℚ) = (2 : ℚ) ^ (52 : ℕ) := by norm_cast
      calc ⌊fl q1⌋ ≤ ⌊(((2 : ℤ) ^ (52 : ℕ) : ℤ) : ℚ)⌋ := by
            apply Int.floor_le_floor
            rw [hcast, ← h52]
            exact hflq1le
        _ = 2 ^ (52 : ℕ) := Int.floor_intCast _
    have havgQ : (0 : ℚ) < (avg : ℚ) := by exact_mod_cast hpos
    obtain ⟨hab1, hab2⟩ := floorLog2Q_bounds ((avg : ℚ)) havgQ
    have hEale : floorLog2Q ((avg : ℚ)) ≤ 52 := by
      by_contra hE
      push_neg at hE
      have h1 : (2 : ℚ) ^ ((53 : ℤ)) ≤ (2 : ℚ) ^ floorLog2Q ((avg : ℚ)) :=
        zpow_le_zpow_right₀ one_le_two (by omega)
      have h2 : ((avg : ℚ)) ≤ (2 : ℚ) ^ ((52 : ℤ)) := by
        rw [h52]
        exact_mod_cast havgle
      have h3 : (2 : ℚ) ^ ((52 : ℤ)) < (2 : ℚ) ^ ((53 : ℤ)) :=
        zpow_lt_zpow_right₀ one_lt_two (by omega)
      linarith
    have hq2pos : (0 : ℚ) < (avg : ℚ) / (2 : ℚ) ^ p := div_pos havgQ hcc_pos
    have hEq2 : floorLog2Q ((avg : ℚ) / (2 : ℚ) ^ p) = floorLog2Q ((avg : ℚ)) - p := by
      apply floorLog2Q_unique _ hq2pos
      · rw [zpow_sub₀ (two_ne_zero : (2:ℚ) ≠ 0), zpow_natCast]
        exact (div_le_div_iff_of_pos_right hcc_pos).mpr hab1
      · rw [show (floorLog2Q ((avg : ℚ)) - (p : ℤ) + 1) =
            (floorLog2Q ((avg : ℚ)) + 1) - (p : ℤ) by ring,
          zpow_sub₀ (two_ne_zero : (2:ℚ) ≠ 0), zpow_natCast]
        exact (div_lt_div_iff_of_pos_right hcc_pos).mpr hab2
    have hflq2 : fl ((avg : ℚ) / (2 : ℚ) ^ p) = (avg : ℚ) / (2 : ℚ) ^ p := by
      apply fl_eq_self_of _ hq2pos (floorLog2Q ((avg : ℚ)) - p) hEq2 (by omega)
        (avg * 2 ^ ((52 - floorLog2Q ((avg : ℚ))).toNat))
      have hto : ((52 : ℤ) - (floorLog2Q ((avg : ℚ)) - (p : ℤ))).toNat =
          (52 - floorLog2Q ((avg : ℚ))).toNat + p := by omega
      rw [hto, pow_add]
      push_cast
      field_simp
      ring
    have hprod : fl ((avg : ℚ) / (2 : ℚ) ^ p) * fl ((2 : ℚ) ^ p) = (avg : ℚ) := by
      rw [hflq2, hflcc]
      exact div_mul_cancel₀ _ (pow_ne_zero _ (two_ne_zero : (2:ℚ) ≠ 0))
    have hflavg : fl ((avg : ℚ)) = (avg : ℚ) := by
      apply fl_eq_self_of _ havgQ (floorLog2Q ((avg : ℚ))) rfl hEale
        (avg * 2 ^ ((52 - floorLog2Q ((avg : ℚ))).toNat))
      push_cast
      ring
    rw [hprod, hflavg, pytrunc_eq_floor _ havgQ.le]
    exact Int.floor_intCast avg

/-- C7 (amended): quotas are proportional to observed frequency up to
binary64 rounding.  For every positive number of sampled cubes and every
power-of-two `card_count = 2^p` (`p ≤ 52`), with fewer than `2^52` rows of
the color, the pre-remediation quota equals the truncated float average
`int(color_rows / n)` — scaling by a power of two and back is exact, so the
normalize-then-rescale does not change the value; and with a single sampled
cube it equals the exact integer floor of the row count.  (For general
`card_count` the rescale can lower the value — see the counterexample at
`card_count = 49`.) -/
theorem C7_quota_power_of_two (p : Nat) (hp : p ≤ 52) (color : String)
    (frame : List RawCard) (n : Nat) (hn : 0 < n)
    (hsize : (((frame.filter (fun r => decide (r.colorCategory = color))).length : ℚ)) <
      2 ^ (52 : ℕ)) :
    get_normalized_card_count ((2 : Int) ^ p) color frame n =
      pytrunc (fl (((frame.filter
        (fun r => decide (r.colorCategory = color))).length : ℚ) / (n : ℚ))) ∧
    (n = 1 →
      get_normalized_card_count ((2 : Int) ^ p) color frame n =
        ⌊(((frame.filter
          (fun r => decide (r.colorCategory = color))).length : ℚ) / (n : ℚ))⌋) := by
  have hmain : get_normalized_card_count ((2 : Int) ^ p) color frame n =
      pytrunc (fl (((frame.filter
        (fun r => decide (r.colorCategory = color))).length : ℚ) / (n : ℚ))) := by
    rw [get_normalized_card_count_eq]
    exact quota_float_aux p hp _ n hn hsize
  refine ⟨hmain, fun hn1 => ?_⟩
  subst hn1
  rw [hmain]
  simp only [Nat.cast_one, div_one]
  rw [fl_natCast_small _ hsize, pytrunc_eq_floor _ (by positivity)]

set_option maxRecDepth 8000 in
unseal Rat.add Rat.mul Rat.inv Rat.sub in
/-- Witness for the amended C7: one Blue row, one sampled cube,
`card_count = 2^2 = 4` — the quota is the truncated average, which here is
the exact floor `1`. -/
theorem C7_quota_power_of_two_witness :
    (2 : Nat) ≤ 52 ∧ (0 : Nat) < 1 ∧
    ((([(⟨"A", "Blue"⟩ : RawCard)].filter
      (fun r => decide (r.colorCategory = "Blue"))).length : ℚ)) < 2 ^ (52 : ℕ) ∧
    get_normalized_card_count ((2 : Int) ^ 2) "Blue" [⟨"A", "Blue"⟩] 1 =
      pytrunc (fl ((([(⟨"A", "Blue"⟩ : RawCard)].filter
        (fun r => decide (r.colorCategory = "Blue"))).length : ℚ) / ((1 : Nat) : ℚ))) ∧
    get_normalized_card_count ((2 : Int) ^ 2) "Blue" [⟨"A", "Blue"⟩] 1 =
      ⌊((([(⟨"A", "Blue"⟩ : RawCard)].filter
        (fun r => decide (r.colorCategory = "Blue"))).length : ℚ) / ((1 : Nat) : ℚ))⌋ :=
  ⟨by decide, by decide, by decide,
   (C7_quota_power_of_two 2 (by decide) "Blue" [⟨"A", "Blue"⟩] 1 (by decide) (by decide)).1,
   (C7_quota_power_of_two 2 (by decide) "Blue" [⟨"A", "Blue"⟩] 1 (by decide) (by decide)).2
     rfl⟩
